import Mathlib

/-!
# Huffman encoder / decoder (`HuffmanCoder.cpp`)

A shallow embedding of the `HuffmanCoder` class and a verification of its
specification.

Modelling conventions.

* A `char` is a `Byte` (one of 256 values); a `std::string` is a `List Byte`.
  The tokens of the program are the bytes `'I' = 73`, `'L' = 76`, `'0' = 48`,
  `'1' = 49` and `'\0' = 0`.
* A `HuffmanTreeNode *` is a value of the inductive type `HuffmanTreeNode`,
  whose constructor `null` is `nullptr`.
* `int` quantities (frequencies, string lengths, cursors) are modelled at two
  levels.  The definitions of the program as a whole take them as exact natural
  numbers, which is what they are on every input of fewer than `2^31`
  characters.  The three functions in which an input of `2^31` characters or
  more takes an `int` out of range, `count_freqs`, `deserialize_helper` and
  `binaryToASCII`, are defined a second time in the namespace `Machine` with
  the 32-bit `int` of the program: a conversion to `int` and `++` wrap modulo
  `2^32` (`toInt32`).  The two levels are proved to agree below `2^31`, and the
  claims about these three functions alone are stated on the `Machine`
  definitions.
* `std::unordered_map` is an association list with distinct keys.  Its iteration
  order and the tie-breaking of `std::priority_queue` are not fixed by the
  program; they are the fields of `Containers`, and the theorems hold for every
  lawful choice.
* Loops and recursions that the program does not obviously bound carry a fuel
  argument; `none` means that the fuel ran out.
-/

namespace HuffmanCoder

/-! ## Data model -/

/-- One `char` of the program. -/
abbrev Byte := Fin 256

/-- The token that opens an internal node in a serialized tree. -/
abbrev tokI : Byte := 73

/-- The token that opens a leaf in a serialized tree. -/
abbrev tokL : Byte := 76

/-- The character of a left step in a bit-string. -/
abbrev bit0 : Byte := 48

/-- The character of a right step in a bit-string. -/
abbrev bit1 : Byte := 49

/-- The character that internal nodes carry. -/
abbrev NUL : Byte := 0

/-- Modelled from the spec: `HuffmanTreeNode.h` is not among the sources.  A node
owns a byte value, a frequency and two child pointers; `null` is `nullptr`. -/
inductive HuffmanTreeNode where
  | null : HuffmanTreeNode
  | node (val : Byte) (freq : Nat) (left right : HuffmanTreeNode) : HuffmanTreeNode
  deriving DecidableEq, Repr

namespace HuffmanTreeNode

/-- Modelled from the spec: the accessor `get_val` of `HuffmanTreeNode.h`. -/
def get_val : HuffmanTreeNode → Byte
  | null => NUL
  | node v _ _ _ => v

/-- Modelled from the spec: the accessor `get_freq` of `HuffmanTreeNode.h`. -/
def get_freq : HuffmanTreeNode → Nat
  | null => 0
  | node _ f _ _ => f

/-- Modelled from the spec: the accessor `get_left` of `HuffmanTreeNode.h`. -/
def get_left : HuffmanTreeNode → HuffmanTreeNode
  | null => null
  | node _ _ l _ => l

/-- Modelled from the spec: the accessor `get_right` of `HuffmanTreeNode.h`. -/
def get_right : HuffmanTreeNode → HuffmanTreeNode
  | null => null
  | node _ _ _ r => r

/-- Modelled from the spec: `is_leaf` of `HuffmanTreeNode.h`; a leaf is a node
without children. -/
def is_leaf : HuffmanTreeNode → Bool
  | node _ _ null null => true
  | _ => false

end HuffmanTreeNode

open HuffmanTreeNode

/-- The type of `freqMap`, a `std::unordered_map<char, int>`. -/
abbrev FreqMap := List (Byte × Nat)

/-- The type of `codeMap`, a `std::unordered_map<char, std::string>`. -/
abbrev CodeMap := List (Byte × List Byte)

/-- The behaviour of the standard containers that the program leaves open: the
order in which an `unordered_map` is iterated, and the layout of a
`priority_queue<HuffmanTreeNode *, vector<HuffmanTreeNode *>, NodeComparator>`,
whose state is the list of the nodes it holds. -/
structure Containers where
  /-- The sequence `freqMap.begin() .. freqMap.end()`. -/
  iterate : FreqMap → FreqMap
  /-- The method `push`. -/
  push : List HuffmanTreeNode → HuffmanTreeNode → List HuffmanTreeNode
  /-- The method `top`. -/
  top : List HuffmanTreeNode → HuffmanTreeNode
  /-- The method `pop`. -/
  pop : List HuffmanTreeNode → List HuffmanTreeNode

/-- A container implementation is lawful when iteration visits every entry once,
`push` adds the node, and `top` and `pop` take one node out of a non-empty
queue. -/
structure Containers.Lawful (c : Containers) : Prop where
  iterate_perm : ∀ m, (c.iterate m).Perm m
  push_perm : ∀ q x, (c.push q x).Perm (x :: q)
  pop_perm : ∀ q, q ≠ [] → (c.top q :: c.pop q).Perm q

/-- Modelled from the spec: `NodeComparator` is not among the sources; the queue
is a min-priority queue on the frequency, with any tie-break. -/
def Containers.MinFirst (c : Containers) : Prop :=
  ∀ q, ∀ y ∈ q, (c.top q).get_freq ≤ y.get_freq

/-! ## A concrete container implementation -/

/-- The first node of least frequency among `x` and `q`. -/
def minNode : HuffmanTreeNode → List HuffmanTreeNode → HuffmanTreeNode
  | x, [] => x
  | x, y :: ys => if y.get_freq < x.get_freq then minNode y ys else minNode x ys

/-- The first node of least frequency of a queue. -/
def listTop : List HuffmanTreeNode → HuffmanTreeNode
  | [] => null
  | x :: xs => minNode x xs

/-- Containers that iterate a map in insertion order and keep the queue as an
unsorted list. -/
def listContainers : Containers :=
  ⟨id, fun q x => x :: q, listTop, fun q => q.erase (listTop q)⟩

/-! ## `count_freqs` -/

/-- The statement `freqMap[holder]++`: a missing key is inserted with count zero
and then incremented.  The counter is exact here; `Machine.incrFreq` has the
`int` counter. -/
def incrFreq (holder : Byte) : FreqMap → FreqMap
  | [] => [(holder, 1)]
  | (k, n) :: rest =>
    if k = holder then (k, n + 1) :: rest else (k, n) :: incrFreq holder rest

/-- The method `count_freqs`: every character of `text` is read (`noskipws`) and
counted into `freqMap`. -/
def count_freqs (text : List Byte) (freqMap : FreqMap) : FreqMap :=
  text.foldl (fun m holder => incrFreq holder m) freqMap

/-- The value of a key in a frequency map, zero when the key is absent. -/
def freqOf (freqMap : FreqMap) (b : Byte) : Nat :=
  match freqMap.lookup b with
  | some n => n
  | none => 0

/-! ## `buildTree` -/

/-- The first loop of `buildTree`: one leaf per entry is pushed. -/
def pushLeaves (c : Containers) (entries : FreqMap) : List HuffmanTreeNode :=
  entries.foldl (fun q e => c.push q (node e.1 e.2 null null)) []

/-- The `while (not tree_pq.empty())` loop of `buildTree`; `root` is the member
`this->root`. -/
def buildLoop (c : Containers) :
    Nat → List HuffmanTreeNode → HuffmanTreeNode → Option HuffmanTreeNode
  | 0, _, _ => none
  | fuel + 1, tree_pq, root =>
    if tree_pq.isEmpty then some root
    else if tree_pq.length = 1 then
      buildLoop c fuel (c.pop tree_pq) (c.top tree_pq)
    else
      let top1 := c.top tree_pq
      let q1 := c.pop tree_pq
      let top2 := c.top q1
      let q2 := c.pop q1
      let parentFreq := top1.get_freq + top2.get_freq
      let parent := node NUL parentFreq top1 top2
      buildLoop c fuel (c.push q2 parent) root

/-- The method `buildTree`, started with `this->root == nullptr` as the
constructor leaves it. -/
def buildTree (c : Containers) (freqMap : FreqMap) : Option HuffmanTreeNode :=
  let tree_pq := pushLeaves c (c.iterate freqMap)
  buildLoop c (tree_pq.length + 1) tree_pq null

/-! ## `createCharCodes` -/

/-- The assignment `codeMap[key] = code`. -/
def assignCode (key : Byte) (code : List Byte) : CodeMap → CodeMap
  | [] => [(key, code)]
  | (k, v) :: rest =>
    if k = key then (k, code) :: rest else (k, v) :: assignCode key code rest

/-- The method `charCodeHelper`; the state is `codeMap` and the shared string
`currCode`. -/
def charCodeHelper :
    HuffmanTreeNode → CodeMap × List Byte → Byte → CodeMap × List Byte
  | null, st, _ => st
  | node v f l r, (codeMap, currCode), leftOrRight =>
    let pushed := currCode ++ [leftOrRight]
    if (node v f l r).is_leaf then
      (assignCode v pushed codeMap, pushed.dropLast)
    else
      let st1 := charCodeHelper l (codeMap, pushed) bit0
      let st2 := charCodeHelper r st1 bit1
      (st2.1, st2.2.dropLast)

/-- The method `createCharCodes`, returning `codeMap` and the final `charCode`.
A null root is dereferenced by the program: no result. -/
def createCharCodes (root : HuffmanTreeNode) (codeMap : CodeMap) :
    Option (CodeMap × List Byte) :=
  match root with
  | null => none
  | node v _ l r =>
    if v ≠ NUL then some (assignCode v [bit0] codeMap, [])
    else
      let st1 := charCodeHelper l (codeMap, []) bit0
      some (charCodeHelper r st1 bit1)

/-- The expression `codeMap[holder]` read as a value: a missing key yields the
empty string. -/
def codeOf (codeMap : CodeMap) (holder : Byte) : List Byte :=
  match codeMap.lookup holder with
  | some code => code
  | none => []

/-- The method `asciiToBinary` on the contents of the input file. -/
def asciiToBinary (codeMap : CodeMap) (text : List Byte) : List Byte :=
  text.foldl (fun binString holder => binString ++ codeOf codeMap holder) []

/-! ## Serialization -/

/-- The method `serialize_tree`. -/
def serialize_tree : HuffmanTreeNode → List Byte
  | null => []
  | node v f l r =>
    if (node v f l r).is_leaf then [tokL, v]
    else tokI :: (serialize_tree l ++ serialize_tree r)

/-- The method `deserialize_helper`; the result is the node and the value of
`index` on return.  `s[index]` at `index == s.length()` is the terminating
`'\0'`.  The one-argument constructor leaves the frequency unspecified; it is
taken to be zero.  The cursor and the length are exact here;
`Machine.deserialize_helper` has `int index` and `int(s.length())`. -/
def deserialize_helper (s : List Byte) : Nat → Nat → Option (HuffmanTreeNode × Nat)
  | 0, _ => none
  | fuel + 1, index =>
    if index ≥ s.length then some (null, index)
    else if s.getD index NUL = tokI then
      match deserialize_helper s fuel (index + 1) with
      | none => none
      | some (lt, i1) =>
        match deserialize_helper s fuel (i1 + 1) with
        | none => none
        | some (rt, i2) => some (node NUL 0 lt rt, i2)
    else if s.getD index NUL = tokL then
      some (node (s.getD (index + 1) NUL) 0 null null, index + 1)
    else some (null, index)

/-- The method `deserialize_tree`: the new value of `this->root`. -/
def deserialize_tree (s : List Byte) : Option HuffmanTreeNode :=
  (deserialize_helper s (s.length + 1) 0).map Prod.fst

/-! ## Decoding -/

/-- The message of the exception thrown by `binaryToASCII`. -/
def mismatchError : String := "Encoding did not match Huffman tree."

/-- The `while (index <= binLen)` loop of `binaryToASCII`; the state is `curr`,
`index` and `res`.  The cursor and the length are exact here;
`Machine.binaryToASCII_loop` has `int index` and `int binLen`. -/
def binaryToASCII_loop (root : HuffmanTreeNode) (binString : List Byte) :
    Nat → HuffmanTreeNode → Nat → List Byte → Option (Except String (List Byte))
  | 0, _, _, _ => none
  | fuel + 1, curr, index, res =>
    if index ≤ binString.length then
      match curr with
      | null => binaryToASCII_loop root binString fuel curr (binString.length + 1) res
      | node v f l r =>
        if (node v f l r).is_leaf then
          if index = binString.length then some (Except.ok (res ++ [v]))
          else binaryToASCII_loop root binString fuel root index (res ++ [v])
        else if index = binString.length then some (Except.error mismatchError)
        else if binString.getD index NUL = bit0 then
          binaryToASCII_loop root binString fuel l (index + 1) res
        else binaryToASCII_loop root binString fuel r (index + 1) res
    else some (Except.ok res)

/-- The method `binaryToASCII` for `this->root == root`. -/
def binaryToASCII (root : HuffmanTreeNode) (binString : List Byte) :
    Option (Except String (List Byte)) :=
  binaryToASCII_loop root binString (2 * binString.length + 3) root 0 []

/-- The method `decoder` on the two strings read from the container file; the
result is what is written to the output.  A null root is dereferenced by the
program: no result. -/
def decoder (serializedTree binString : List Byte) :
    Option (Except String (List Byte)) :=
  match deserialize_tree serializedTree with
  | none => none
  | some null => none
  | some (node v f l r) =>
    if (node v f l r).is_leaf then
      some (Except.ok (List.replicate binString.length v))
    else binaryToASCII (node v f l r) binString

/-! ## Encoding -/

/-- What a run of `encoder` produces: the text sent to `cout` and the arguments
of `writeZapFile`, `none` when that call is not reached. -/
structure EncoderOutput where
  /-- The text written to standard output. -/
  cout : String
  /-- The serialized tree and bit-string handed to `writeZapFile`. -/
  zapFile : Option (List Byte × List Byte)
  deriving DecidableEq, Repr

/-- The notice of `encoder` for an empty input. -/
def emptyNotice (inputFile : String) : String :=
  inputFile ++ " is empty and cannot be compressed.\n"

/-- The method `encoder` on an input file of contents `text`, for a fresh
`HuffmanCoder` (empty maps, null root). -/
def encoder (c : Containers) (inputFile : String) (text : List Byte) :
    Option EncoderOutput :=
  let freqMap := count_freqs text []
  if freqMap.isEmpty then some ⟨emptyNotice inputFile, none⟩
  else
    match buildTree c freqMap with
    | none => none
    | some root =>
      match createCharCodes root [] with
      | none => none
      | some (codeMap, _) =>
        let binString := asciiToBinary codeMap text
        let serializedTree := serialize_tree root
        some ⟨"Success! Encoded given text using " ++ toString binString.length ++ " bits.\n",
          some (serializedTree, binString)⟩

/-- The composition `decoder ∘ encoder`: the zap file written by `encoder` is
read back by `decoder`.  `none` when no file is written or no result is
produced. -/
def roundTrip (c : Containers) (text : List Byte) : Option (Except String (List Byte)) :=
  match encoder c "" text with
  | some ⟨_, some (serializedTree, binString)⟩ => decoder serializedTree binString
  | _ => none

/-! ## Notions used to state the specification -/

/-- The keys of a map, in the order of its entries. -/
def keys {β : Type} (m : List (Byte × β)) : List Byte := m.map Prod.fst

/-- A tree in which every node is a leaf or has two children, down to the
leaves; `nullptr` is not such a tree. -/
def isFull : HuffmanTreeNode → Bool
  | null => false
  | node v f l r => (node v f l r).is_leaf || (isFull l && isFull r)

/-- The byte values held by the leaves of a tree, from left to right. -/
def leafVals : HuffmanTreeNode → List Byte
  | null => []
  | node v f l r => if (node v f l r).is_leaf then [v] else leafVals l ++ leafVals r

/-- The leaves of a tree from left to right, each with the branch labels on the
path from the root: `'0'` for a left step and `'1'` for a right step. -/
def rootPaths : HuffmanTreeNode → List (Byte × List Byte)
  | null => []
  | node v f l r =>
    if (node v f l r).is_leaf then [(v, [])]
    else (rootPaths l).map (fun e => (e.1, bit0 :: e.2)) ++
      (rootPaths r).map (fun e => (e.1, bit1 :: e.2))

/-- Two trees of the same shape with the same byte value at every leaf;
frequencies and the values of internal nodes are not compared. -/
def sameShape : HuffmanTreeNode → HuffmanTreeNode → Bool
  | null, null => true
  | node v f l r, node w _ l2 r2 =>
    sameShape l l2 && sameShape r r2 && (!(node v f l r).is_leaf || v == w)
  | _, _ => false

/-- The node reached from a node by a sequence of branch labels, read as
`binaryToASCII` reads them: `'0'` goes left, any other character right. -/
def descend : HuffmanTreeNode → List Byte → HuffmanTreeNode
  | t, [] => t
  | null, _ :: _ => null
  | node _ _ l r, b :: bs => if b = bit0 then descend l bs else descend r bs

/-- The weighted path length of a tree whose root is at depth `depth`: the sum
over the leaves of the weight of the leaf's byte times the depth of the leaf. -/
def weightedPathLength (weight : Byte → Nat) : Nat → HuffmanTreeNode → Nat
  | _, null => 0
  | depth, node v f l r =>
    if (node v f l r).is_leaf then weight v * depth
    else weightedPathLength weight (depth + 1) l + weightedPathLength weight (depth + 1) r

/-- The number of nodes on the longest branch of a tree. -/
def height : HuffmanTreeNode → Nat
  | null => 0
  | node _ _ l r => max (height l) (height r) + 1

/-- The property of the queue of `buildTree` that gives the shape of its result:
every node is a full tree whose root is a leaf or carries `'\0'`, and the leaves
of the queue hold the bytes `ks`. -/
def ShapeInv (ks : List Byte) (q : List HuffmanTreeNode) : Prop :=
  (∀ t ∈ q, isFull t = true ∧ (t.is_leaf = true ∨ t.get_val = NUL)) ∧
    (q.flatMap leafVals).Perm ks

/-- A binary tree that carries only the weights of its leaves: the shape of a
code, used to compare weighted path lengths. -/
inductive WTree where
  | leaf (w : Nat) : WTree
  | node (l r : WTree) : WTree

/-- The weights of the leaves of a weight tree, from left to right. -/
def WTree.leaves : WTree → List Nat
  | leaf w => [w]
  | node l r => l.leaves ++ r.leaves

/-- The length of the longest branch of a weight tree. -/
def WTree.height : WTree → Nat
  | leaf _ => 0
  | node l r => max l.height r.height + 1

/-- The weighted path length of a weight tree: each leaf counts once for every
node above it. -/
def WTree.cost : WTree → Nat
  | leaf _ => 0
  | node l r => l.cost + r.cost + l.leaves.sum + r.leaves.sum

/-- The weighted path length of a tree in terms of the frequencies stored in its
nodes: every node below the root adds its frequency. -/
def mergeCost : HuffmanTreeNode → Nat
  | null => 0
  | node v f l r =>
    if (node v f l r).is_leaf then 0
    else mergeCost l + mergeCost r + l.get_freq + r.get_freq

/-- The frequencies stored in a tree are those of the table: a leaf carries the
weight of its byte and every other node the sum of its two children. -/
def freqConsistent (weight : Byte → Nat) : HuffmanTreeNode → Bool
  | null => true
  | node v f l r =>
    if (node v f l r).is_leaf then f == weight v
    else f == l.get_freq + r.get_freq && freqConsistent weight l && freqConsistent weight r

/-- The property of the queue of `buildTree` behind optimality: the nodes are
full trees with consistent frequencies, and every weight tree over the weights
of the table can be turned into a weight tree over the frequencies of the queue
whose cost, added to the cost already spent inside the nodes of the queue, is
not larger. -/
def OptInv (m : FreqMap) (q : List HuffmanTreeNode) : Prop :=
  (∀ t ∈ q, isFull t = true ∧ freqConsistent (freqOf m) t = true) ∧
    ∀ T0 : WTree, T0.leaves.Perm (m.map Prod.snd) →
      ∃ T : WTree, T.leaves.Perm (q.map get_freq) ∧
        (q.map mergeCost).sum + T.cost ≤ T0.cost

/-- The number of leaves of a tree. -/
def numLeaves : HuffmanTreeNode → Nat
  | null => 0
  | node v f l r => if (node v f l r).is_leaf then 1 else numLeaves l + numLeaves r

/-- The number of nodes of a tree that are not leaves. -/
def numInternal : HuffmanTreeNode → Nat
  | null => 0
  | node v f l r => if (node v f l r).is_leaf then 0 else numInternal l + numInternal r + 1

/-- The property of the queue of `buildTree` behind the bookkeeping of
frequencies: every node is a full tree with consistent frequencies. -/
def FreqInv (m : FreqMap) (q : List HuffmanTreeNode) : Prop :=
  ∀ t ∈ q, isFull t = true ∧ freqConsistent (freqOf m) t = true

/-- The tree that `deserialize_helper` builds from the serialization of a tree:
the same shape and leaf bytes, internal nodes holding `'\0'`, frequencies zero. -/
def deserialized : HuffmanTreeNode → HuffmanTreeNode
  | null => null
  | node v f l r =>
    if (node v f l r).is_leaf then node v 0 null null
    else node NUL 0 (deserialized l) (deserialized r)

/-! ## The functions with the 32-bit `int` of the program

The definitions above take `int` as exact.  Three functions of the program hold
a quantity in an `int` that an input of `2^31` characters or more takes out of
range: the counters of `count_freqs`, and the lengths `int(s.length())` of
`deserialize_helper` and `int(binString.length())` of `binaryToASCII`.  Their
definitions with a 32-bit `int` follow; the two levels agree below `2^31`. -/

/-- The value of a 32-bit `int` that is given the integer `n` by a conversion or
by `++`: the two's complement wrap of `n`. -/
def toInt32 (n : Int) : Int := (n + 2147483648) % 4294967296 - 2147483648

namespace Machine

/-- The type of `freqMap`, a `std::unordered_map<char, int>`, with `int`
counters. -/
abbrev FreqMap := List (Byte × Int)

/-- The statement `freqMap[holder]++` on an `int` counter. -/
def incrFreq (holder : Byte) : FreqMap → FreqMap
  | [] => [(holder, toInt32 (0 + 1))]
  | (k, n) :: rest =>
    if k = holder then (k, toInt32 (n + 1)) :: rest else (k, n) :: incrFreq holder rest

/-- The method `count_freqs` with `int` counters. -/
def count_freqs (text : List Byte) (freqMap : FreqMap) : FreqMap :=
  text.foldl (fun m holder => incrFreq holder m) freqMap

/-- The method `deserialize_helper` with `int index` and the bound
`int(s.length())` of its entry test.  The cursor is negative only after
`++index` has overflowed, from where the behaviour of the program is undefined;
the theorems bound the length so that this is not reached. -/
def deserialize_helper (s : List Byte) : Nat → Int → Option (HuffmanTreeNode × Int)
  | 0, _ => none
  | fuel + 1, index =>
    if index ≥ toInt32 s.length then some (null, index)
    else if s.getD index.toNat NUL = tokI then
      match deserialize_helper s fuel (toInt32 (index + 1)) with
      | none => none
      | some (lt, i1) =>
        match deserialize_helper s fuel (toInt32 (i1 + 1)) with
        | none => none
        | some (rt, i2) => some (node NUL 0 lt rt, i2)
    else if s.getD index.toNat NUL = tokL then
      some (node (s.getD (toInt32 (index + 1)).toNat NUL) 0 null null, toInt32 (index + 1))
    else some (null, index)

/-- The method `deserialize_tree` with the `int` cursor. -/
def deserialize_tree (s : List Byte) : Option HuffmanTreeNode :=
  (deserialize_helper s (s.length + 1) 0).map Prod.fst

/-- The `while (index <= binLen)` loop of `binaryToASCII` with `int index` and
`int binLen`.  When `binLen` is negative the loop test fails at once; the
assignment `index = binLen + 1` overflows only for `binLen = 2^31 - 1`. -/
def binaryToASCII_loop (root : HuffmanTreeNode) (binString : List Byte) (binLen : Int) :
    Nat → HuffmanTreeNode → Int → List Byte → Option (Except String (List Byte))
  | 0, _, _, _ => none
  | fuel + 1, curr, index, res =>
    if index ≤ binLen then
      match curr with
      | null => binaryToASCII_loop root binString binLen fuel curr (toInt32 (binLen + 1)) res
      | node v f l r =>
        if (node v f l r).is_leaf then
          if index = binLen then some (Except.ok (res ++ [v]))
          else binaryToASCII_loop root binString binLen fuel root index (res ++ [v])
        else if index = binLen then some (Except.error mismatchError)
        else if binString.getD index.toNat NUL = bit0 then
          binaryToASCII_loop root binString binLen fuel l (toInt32 (index + 1)) res
        else binaryToASCII_loop root binString binLen fuel r (toInt32 (index + 1)) res
    else some (Except.ok res)

/-- The method `binaryToASCII` with `int binLen = int(binString.length())`. -/
def binaryToASCII (root : HuffmanTreeNode) (binString : List Byte) :
    Option (Except String (List Byte)) :=
  binaryToASCII_loop root binString (toInt32 binString.length)
    (2 * binString.length + 3) root 0 []

end Machine

/-! # Verification -/

/-! ## Lemmas on `count_freqs` -/

theorem lookup_cons_ite {β : Type} (b k : Byte) (v : β) (rest : List (Byte × β)) :
    ((k, v) :: rest).lookup b = if b = k then some v else rest.lookup b := by
  rw [List.lookup_cons]
  by_cases h : b = k
  · subst h; simp
  · have h2 : (b == k) = false := by simpa using h
    simp [h2, h]

theorem lookup_incrFreq (c b : Byte) (m : FreqMap) :
    (incrFreq c m).lookup b = if b = c then some (freqOf m c + 1) else m.lookup b := by
  induction m with
  | nil =>
    simp [incrFreq, freqOf, lookup_cons_ite]
  | cons e rest ih =>
    obtain ⟨k, n⟩ := e
    by_cases hk : k = c
    · subst hk
      by_cases hb : b = k
      · subst hb; simp [incrFreq, freqOf]
      · simp [incrFreq, lookup_cons_ite, hb]
    · by_cases hb : b = c
      · subst hb
        have hbk : ¬ b = k := fun h => hk h.symm
        simp [incrFreq, hk, lookup_cons_ite, hbk, ih, freqOf]
      · by_cases hbk : b = k
        · subst hbk; simp [incrFreq, hk, lookup_cons_ite]
        · simp [incrFreq, hk, lookup_cons_ite, hbk, ih, hb]

theorem keys_incrFreq (c : Byte) (m : FreqMap) :
    keys (incrFreq c m) = if c ∈ keys m then keys m else keys m ++ [c] := by
  induction m with
  | nil => simp [incrFreq, keys]
  | cons e rest ih =>
    obtain ⟨k, n⟩ := e
    by_cases hk : k = c
    · subst hk; simp [incrFreq, keys]
    · have hck : ¬ c = k := fun h => hk h.symm
      have ih2 := ih
      simp only [keys] at ih2
      by_cases hc : c ∈ List.map Prod.fst rest
      · simp [incrFreq, hk, keys, hck, hc, ih2]
      · simp [incrFreq, hk, keys, hck, hc, ih2]

theorem sum_incrFreq (c : Byte) (m : FreqMap) :
    ((incrFreq c m).map Prod.snd).sum = (m.map Prod.snd).sum + 1 := by
  induction m with
  | nil => simp [incrFreq]
  | cons e rest ih =>
    obtain ⟨k, n⟩ := e
    by_cases hk : k = c
    · simp [incrFreq, hk]; omega
    · simp [incrFreq, hk, ih]; omega

theorem incrFreq_ne_nil (c : Byte) (m : FreqMap) : incrFreq c m ≠ [] := by
  cases m with
  | nil => simp [incrFreq]
  | cons e rest =>
    obtain ⟨k, n⟩ := e
    by_cases hk : k = c <;> simp [incrFreq, hk]

theorem count_freqs_append (s t : List Byte) (m : FreqMap) :
    count_freqs (s ++ t) m = count_freqs t (count_freqs s m) := by
  simp [count_freqs, List.foldl_append]

theorem count_freqs_cons (a : Byte) (s : List Byte) (m : FreqMap) :
    count_freqs (a :: s) m = count_freqs s (incrFreq a m) := rfl

theorem lookup_count_freqs (S : List Byte) (m : FreqMap) (b : Byte) :
    (count_freqs S m).lookup b =
      if b ∈ S then some (freqOf m b + S.count b) else m.lookup b := by
  induction S generalizing m with
  | nil => simp [count_freqs]
  | cons a s ih =>
    rw [count_freqs_cons, ih, lookup_incrFreq]
    by_cases hba : b = a
    · subst hba
      have h1 : freqOf (incrFreq b m) b = freqOf m b + 1 := by
        simp [freqOf, lookup_incrFreq]
      by_cases hs : b ∈ s
      · simp [hs, h1]; omega
      · simp [hs, List.count_eq_zero_of_not_mem hs]
    · have h1 : freqOf (incrFreq a m) b = freqOf m b := by
        simp [freqOf, lookup_incrFreq, hba]
      have hab : ¬ a = b := fun h => hba h.symm
      by_cases hs : b ∈ s
      · simp [hs, h1, hba, List.count_cons, hab]
      · simp [hs, hba]

theorem nodup_keys_incrFreq (c : Byte) (m : FreqMap) (h : (keys m).Nodup) :
    (keys (incrFreq c m)).Nodup := by
  rw [keys_incrFreq]
  by_cases hc : c ∈ keys m
  · simp [hc, h]
  · simp only [hc, if_false]
    exact List.Nodup.append h (List.nodup_singleton c) (by simpa using hc)

theorem nodup_keys_count_freqs (S : List Byte) (m : FreqMap) (h : (keys m).Nodup) :
    (keys (count_freqs S m)).Nodup := by
  induction S generalizing m with
  | nil => simpa [count_freqs] using h
  | cons a s ih => exact ih _ (nodup_keys_incrFreq a m h)

theorem sum_count_freqs (S : List Byte) (m : FreqMap) :
    ((count_freqs S m).map Prod.snd).sum = (m.map Prod.snd).sum + S.length := by
  induction S generalizing m with
  | nil => simp [count_freqs]
  | cons a s ih => rw [count_freqs_cons, ih, sum_incrFreq]; simp; omega

theorem count_freqs_ne_nil (S : List Byte) (m : FreqMap) (h : m ≠ []) :
    count_freqs S m ≠ [] := by
  induction S generalizing m with
  | nil => simpa [count_freqs] using h
  | cons a s ih => exact ih _ (incrFreq_ne_nil a m)

theorem count_freqs_eq_nil_iff (S : List Byte) : count_freqs S [] = [] ↔ S = [] := by
  cases S with
  | nil => simp [count_freqs]
  | cons a s =>
    simp only [count_freqs_cons, reduceCtorEq, iff_false]
    exact count_freqs_ne_nil s _ (incrFreq_ne_nil a [])

theorem mem_keys_count_freqs (S : List Byte) (b : Byte) :
    b ∈ keys (count_freqs S []) ↔ b ∈ S := by
  have h := lookup_count_freqs S [] b
  constructor
  · intro hb
    by_contra hn
    simp only [hn, if_false, List.lookup_nil] at h
    rw [List.lookup_eq_none_iff] at h
    simp only [keys, List.mem_map] at hb
    obtain ⟨e, he, hfst⟩ := hb
    have h3 := h e he
    simp [hfst] at h3
  · intro hb
    simp only [hb, if_true] at h
    by_contra hn
    have h2 : (count_freqs S []).lookup b = none := by
      rw [List.lookup_eq_none_iff]
      intro e he
      simp only [keys, List.mem_map, not_exists, not_and] at hn
      have h3 := hn e he
      simp only [bne_iff_ne, ne_eq]
      exact fun h4 => h3 h4.symm
    rw [h2] at h
    exact Option.noConfusion h

/-- Counting with exact counters: started from an empty map, `count_freqs` maps
every byte that occurs in `S` to its number of occurrences, has no other key
and no key twice, is empty exactly when `S` is empty, and its counts sum to the
length of `S`. -/
theorem count_freqs_exact (S : List Byte) :
    (∀ b, b ∈ S → (count_freqs S []).lookup b = some (S.count b)) ∧
    (∀ b, b ∈ keys (count_freqs S []) ↔ b ∈ S) ∧
    (keys (count_freqs S [])).Nodup ∧
    (count_freqs S [] = [] ↔ S = []) ∧
    ((count_freqs S []).map Prod.snd).sum = S.length := by
  refine ⟨?_, ?_, ?_, count_freqs_eq_nil_iff S, ?_⟩
  · intro b hb
    rw [lookup_count_freqs]
    simp [hb, freqOf]
  · intro b
    exact mem_keys_count_freqs S b
  · exact nodup_keys_count_freqs S [] (by simp [keys])
  · simpa using sum_count_freqs S []

/-! ## The concrete containers are lawful -/

theorem minNode_mem (x : HuffmanTreeNode) (q : List HuffmanTreeNode) :
    minNode x q ∈ x :: q := by
  induction q generalizing x with
  | nil => simp [minNode]
  | cons y ys ih =>
    unfold minNode
    split
    · have h := ih y
      exact List.mem_cons_of_mem _ h
    · have h := ih x
      rcases List.mem_cons.mp h with h | h
      · rw [h]; exact List.mem_cons_self _ _
      · exact List.mem_cons_of_mem _ (List.mem_cons_of_mem _ h)

theorem minNode_le (x : HuffmanTreeNode) (q : List HuffmanTreeNode) :
    ∀ y ∈ x :: q, (minNode x q).get_freq ≤ y.get_freq := by
  induction q generalizing x with
  | nil => intro y hy; simp at hy; subst hy; simp [minNode]
  | cons z zs ih =>
    intro y hy
    unfold minNode
    split
    · rename_i hlt
      have h1 := ih z
      rcases List.mem_cons.mp hy with h | h
      · subst h
        have := h1 z (List.mem_cons_self _ _)
        omega
      · exact h1 y h
    · rename_i hlt
      have h1 := ih x
      rcases List.mem_cons.mp hy with h | h
      · subst h; exact h1 y (List.mem_cons_self _ _)
      · rcases List.mem_cons.mp h with h | h
        · subst h
          have := h1 x (List.mem_cons_self _ _)
          omega
        · exact h1 y (List.mem_cons_of_mem _ h)

theorem listContainers_lawful : listContainers.Lawful := by
  refine ⟨fun m => List.Perm.refl _, fun q x => List.Perm.refl _, ?_⟩
  intro q hq
  cases q with
  | nil => exact absurd rfl hq
  | cons x xs =>
    have hmem : listTop (x :: xs) ∈ x :: xs := minNode_mem x xs
    exact (List.perm_cons_erase hmem).symm

theorem listContainers_minFirst : listContainers.MinFirst := by
  intro q y hy
  cases q with
  | nil => simp at hy
  | cons x xs => exact minNode_le x xs y hy

/-! ## The loop of `buildTree` -/

theorem pushLeaves_perm_aux (c : Containers) (hc : c.Lawful) (entries : FreqMap)
    (acc : List HuffmanTreeNode) :
    (entries.foldl (fun q e => c.push q (node e.1 e.2 null null)) acc).Perm
      (acc ++ entries.map (fun e => node e.1 e.2 null null)) := by
  induction entries generalizing acc with
  | nil => simp
  | cons e es ih =>
    simp only [List.foldl_cons, List.map_cons]
    refine (ih _).trans ?_
    refine ((hc.push_perm acc (node e.1 e.2 null null)).append_right _).trans ?_
    simp only [List.cons_append]
    exact List.perm_middle.symm

theorem pushLeaves_perm (c : Containers) (hc : c.Lawful) (entries : FreqMap) :
    (pushLeaves c entries).Perm (entries.map (fun e => node e.1 e.2 null null)) := by
  simpa [pushLeaves] using pushLeaves_perm_aux c hc entries []

/-- An invariant of the queue that is kept when two nodes are merged and does
not depend on the order of the queue holds of the one-node queue that
`buildTree` ends with; in particular the loop ends.  When the queue is a
min-queue the two merged nodes have least frequency. -/
theorem buildLoop_invariant (c : Containers) (hc : c.Lawful)
    (P : List HuffmanTreeNode → Prop)
    (hperm : ∀ q q2, q.Perm q2 → P q → P q2)
    (hmerge : ∀ t1 t2 q,
      (c.MinFirst → (∀ y ∈ t2 :: q, t1.get_freq ≤ y.get_freq) ∧
        (∀ y ∈ q, t2.get_freq ≤ y.get_freq)) →
      P (t1 :: t2 :: q) → P (node NUL (t1.get_freq + t2.get_freq) t1 t2 :: q)) :
    ∀ fuel q root, q ≠ [] → q.length < fuel → P q →
      ∃ t, buildLoop c fuel q root = some t ∧ P [t] := by
  intro fuel
  induction fuel with
  | zero => intro q root _ hlen; omega
  | succ fuel ih =>
    intro q root hq hlen hP
    have hp1 := hc.pop_perm q hq
    have hl1 := hp1.length_eq
    simp only [List.length_cons] at hl1
    have hempty : q.isEmpty = false := by
      cases q with
      | nil => exact absurd rfl hq
      | cons _ _ => rfl
    unfold buildLoop
    simp only [hempty, Bool.false_eq_true, if_false]
    by_cases h1 : q.length = 1
    · simp only [h1, if_true]
      have hpop : c.pop q = [] := List.length_eq_zero.mp (by omega)
      rw [hpop] at hp1 ⊢
      cases fuel with
      | zero => omega
      | succ f =>
        refine ⟨c.top q, by simp [buildLoop], hperm _ _ hp1.symm hP⟩
    · simp only [h1, if_false]
      have hq1 : c.pop q ≠ [] := by
        intro h0
        rw [h0] at hl1
        exact h1 (by simpa using hl1.symm)
      have hp2 := hc.pop_perm (c.pop q) hq1
      have hl2 := hp2.length_eq
      simp only [List.length_cons] at hl2
      have hp3 := hc.push_perm (c.pop (c.pop q))
        (node NUL ((c.top q).get_freq + (c.top (c.pop q)).get_freq) (c.top q) (c.top (c.pop q)))
      have hl3 := hp3.length_eq
      simp only [List.length_cons] at hl3
      have hall : (c.top q :: c.top (c.pop q) :: c.pop (c.pop q)).Perm q :=
        (List.Perm.cons _ hp2).trans hp1
      apply ih
      · intro h0
        rw [h0] at hl3
        simp at hl3
      · omega
      · refine hperm _ _ hp3.symm (hmerge _ _ _ ?_ (hperm _ _ hall.symm hP))
        intro hm
        refine ⟨fun y hy => ?_, fun y hy => ?_⟩
        · exact hm q y (hp1.subset (List.mem_cons_of_mem _ (hp2.subset hy)))
        · exact hm (c.pop q) y (hp2.subset (List.mem_cons_of_mem _ hy))

/-! ## Shape of the tree built by `buildTree` -/

theorem is_leaf_iff (v : Byte) (f : Nat) (l r : HuffmanTreeNode) :
    (node v f l r).is_leaf = true ↔ l = null ∧ r = null := by
  cases l <;> cases r <;> simp [is_leaf]

theorem is_leaf_leaf (v : Byte) (f : Nat) : (node v f null null).is_leaf = true := rfl

theorem isFull_ne_null {t : HuffmanTreeNode} (h : isFull t = true) : t ≠ null := by
  intro h0; subst h0; simp [isFull] at h

theorem not_is_leaf_of_left {v : Byte} {f : Nat} {l r : HuffmanTreeNode} (h : l ≠ null) :
    (node v f l r).is_leaf = false := by
  cases l with
  | null => exact absurd rfl h
  | node _ _ _ _ => rfl

theorem not_is_leaf_of_right {v : Byte} {f : Nat} {l r : HuffmanTreeNode} (h : r ≠ null) :
    (node v f l r).is_leaf = false := by
  cases r with
  | null => exact absurd rfl h
  | node _ _ _ _ => cases l <;> rfl

theorem leafVals_leaf (v : Byte) (f : Nat) : leafVals (node v f null null) = [v] := rfl

theorem leafVals_internal {v : Byte} {f : Nat} {l r : HuffmanTreeNode}
    (h : (node v f l r).is_leaf = false) :
    leafVals (node v f l r) = leafVals l ++ leafVals r := by
  simp [leafVals, h]

theorem flatMap_leafVals_leaves (entries : FreqMap) :
    (entries.map (fun e => node e.1 e.2 null null)).flatMap leafVals = keys entries := by
  induction entries with
  | nil => rfl
  | cons e es ih =>
    simp only [List.map_cons, List.flatMap_cons, ih, leafVals_leaf, keys]
    rfl

theorem shapeInv_perm (ks : List Byte) (q q2 : List HuffmanTreeNode) (hp : q.Perm q2)
    (h : ShapeInv ks q) : ShapeInv ks q2 :=
  ⟨fun t ht => h.1 t (hp.symm.subset ht), (List.Perm.flatMap_right leafVals hp).symm.trans h.2⟩

theorem shapeInv_merge (ks : List Byte) (t1 t2 : HuffmanTreeNode) (q : List HuffmanTreeNode)
    (f : Nat) (h : ShapeInv ks (t1 :: t2 :: q)) : ShapeInv ks (node NUL f t1 t2 :: q) := by
  have h1 := h.1 t1 (List.mem_cons_self _ _)
  have h2 := h.1 t2 (List.mem_cons_of_mem _ (List.mem_cons_self _ _))
  have hnl : (node NUL f t1 t2).is_leaf = false := not_is_leaf_of_left (isFull_ne_null h1.1)
  refine ⟨?_, ?_⟩
  · intro t ht
    rcases List.mem_cons.mp ht with ht | ht
    · subst ht
      exact ⟨by simp [isFull, h1.1, h2.1], Or.inr rfl⟩
    · exact h.1 t (List.mem_cons_of_mem _ (List.mem_cons_of_mem _ ht))
  · have h3 := h.2
    simp only [List.flatMap_cons] at h3 ⊢
    rw [leafVals_internal hnl, List.append_assoc]
    exact h3

theorem shapeInv_init (c : Containers) (hc : c.Lawful) (m : FreqMap) :
    ShapeInv (keys m) (pushLeaves c (c.iterate m)) := by
  apply shapeInv_perm _ _ _ (pushLeaves_perm c hc (c.iterate m)).symm
  refine ⟨?_, ?_⟩
  · intro t ht
    obtain ⟨e, _, rfl⟩ := List.mem_map.mp ht
    exact ⟨rfl, Or.inl rfl⟩
  · rw [flatMap_leafVals_leaves]
    exact (hc.iterate_perm m).map Prod.fst

theorem pushLeaves_ne_nil (c : Containers) (hc : c.Lawful) (m : FreqMap) (hm : m ≠ []) :
    pushLeaves c (c.iterate m) ≠ [] := by
  intro h0
  have h1 := (pushLeaves_perm c hc (c.iterate m)).length_eq
  have h2 := (hc.iterate_perm m).length_eq
  rw [h0] at h1
  simp only [List.length_nil, List.length_map] at h1
  cases m with
  | nil => exact hm rfl
  | cons _ _ => simp at h2; omega

/-- For a non-empty frequency map `buildTree` returns a root; it is a full tree,
a leaf or a node holding `'\0'`, and its leaves hold the keys of the map, each
once per entry. -/
theorem buildTree_shape (c : Containers) (hc : c.Lawful) (m : FreqMap) (hm : m ≠ []) :
    ∃ root, buildTree c m = some root ∧ isFull root = true ∧
      (root.is_leaf = true ∨ root.get_val = NUL) ∧ (leafVals root).Perm (keys m) := by
  obtain ⟨t, ht, hP⟩ := buildLoop_invariant c hc (ShapeInv (keys m))
    (shapeInv_perm (keys m)) (fun t1 t2 q _ h => shapeInv_merge (keys m) t1 t2 q _ h)
    ((pushLeaves c (c.iterate m)).length + 1) (pushLeaves c (c.iterate m)) null
    (pushLeaves_ne_nil c hc m hm) (Nat.lt_succ_self _) (shapeInv_init c hc m)
  refine ⟨t, ht, (hP.1 t (List.mem_singleton_self t)).1, (hP.1 t (List.mem_singleton_self t)).2, ?_⟩
  simpa using hP.2

/-- A map with one entry is built into the leaf of that entry. -/
theorem buildTree_single (c : Containers) (hc : c.Lawful) (b : Byte) (n : Nat) :
    buildTree c [(b, n)] = some (node b n null null) := by
  obtain ⟨t, ht, hP⟩ := buildLoop_invariant c hc (fun q => q.Perm [node b n null null])
    (fun q q2 hp h => hp.symm.trans h)
    (fun t1 t2 q _ h => by
      have h1 := h.length_eq
      simp at h1)
    ((pushLeaves c (c.iterate [(b, n)])).length + 1) (pushLeaves c (c.iterate [(b, n)])) null
    (pushLeaves_ne_nil c hc _ (by simp)) (Nat.lt_succ_self _)
    (by
      refine (pushLeaves_perm c hc _).trans ?_
      exact (hc.iterate_perm [(b, n)]).map _)
  have h1 : buildTree c [(b, n)] = some t := ht
  have h2 := List.perm_singleton.mp hP
  simp only [List.cons.injEq, and_true] at h2
  rw [h1, h2]

/-! ## The code table is the list of root paths -/

theorem assignCode_of_not_mem (key : Byte) (code : List Byte) (m : CodeMap)
    (h : key ∉ keys m) : assignCode key code m = m ++ [(key, code)] := by
  induction m with
  | nil => rfl
  | cons e rest ih =>
    obtain ⟨k, v⟩ := e
    simp only [keys, List.map_cons, List.mem_cons, not_or] at h
    have hk : ¬ k = key := fun h0 => h.1 h0.symm
    simp only [assignCode, hk, if_false, List.cons_append, List.cons.injEq, true_and]
    exact ih h.2

theorem keys_rootPaths (t : HuffmanTreeNode) : keys (rootPaths t) = leafVals t := by
  induction t with
  | null => rfl
  | node v f l r ihl ihr =>
    by_cases h : (node v f l r).is_leaf = true
    · simp [rootPaths, leafVals, h, keys]
    · simp only [keys] at ihl ihr
      simp [rootPaths, leafVals, h, keys, ihl, ihr, Function.comp_def]

theorem keys_append {β : Type} (a b : List (Byte × β)) : keys (a ++ b) = keys a ++ keys b := by
  simp [keys]

theorem keys_map_snd {β γ : Type} (a : List (Byte × β)) (g : Byte × β → γ) :
    keys (a.map (fun e => (e.1, g e))) = keys a := by
  simp [keys, Function.comp_def]

/-- On a tree with pairwise distinct leaf bytes that are not yet keys of the
map, `charCodeHelper` appends one entry per leaf, the current code followed by
the branch label and the path to the leaf, and restores the shared string. -/
theorem charCodeHelper_eq (t : HuffmanTreeNode) :
    ∀ (m : CodeMap) (code : List Byte) (lr : Byte), (leafVals t).Nodup →
      (∀ b ∈ leafVals t, b ∉ keys m) →
      charCodeHelper t (m, code) lr =
        (m ++ (rootPaths t).map (fun e => (e.1, code ++ lr :: e.2)), code) := by
  induction t with
  | null => intro m code lr _ _; simp [charCodeHelper, rootPaths]
  | node v f l r ihl ihr =>
    intro m code lr hnd hdisj
    by_cases h : (node v f l r).is_leaf = true
    · have hv : v ∉ keys m := hdisj v (by simp [leafVals, h])
      simp [charCodeHelper, rootPaths, h, assignCode_of_not_mem v _ m hv]
    · have hf : (node v f l r).is_leaf = false := by simpa using h
      rw [leafVals_internal hf] at hnd hdisj
      have hndl := (List.nodup_append.mp hnd).1
      have hndr := (List.nodup_append.mp hnd).2.1
      have hlr := (List.nodup_append.mp hnd).2.2
      have e1 := ihl m (code ++ [lr]) bit0 hndl
        (fun b hb => hdisj b (List.mem_append_left _ hb))
      have e2 := ihr (m ++ (rootPaths l).map (fun e => (e.1, (code ++ [lr]) ++ bit0 :: e.2)))
        (code ++ [lr]) bit1 hndr (by
          intro b hb
          rw [keys_append, keys_map_snd, keys_rootPaths]
          intro hmem
          rcases List.mem_append.mp hmem with h1 | h1
          · exact hdisj b (List.mem_append_right _ hb) h1
          · exact hlr h1 hb)
      simp only [charCodeHelper, hf, Bool.false_eq_true, if_false, e1, e2, rootPaths]
      simp [List.map_append, Function.comp_def]

/-- The three cases of `createCharCodes` on a tree with pairwise distinct leaf
bytes: a root holding a byte other than `'\0'` gets the code `"0"`; a root
holding `'\0'` that is not a leaf gives every leaf its root path. -/
theorem createCharCodes_internal (v : Byte) (f : Nat) (l r : HuffmanTreeNode)
    (hv : v = NUL) (hnd : (leafVals (node v f l r)).Nodup)
    (hnl : (node v f l r).is_leaf = false) :
    createCharCodes (node v f l r) [] = some (rootPaths (node v f l r), []) := by
  subst hv
  rw [leafVals_internal hnl] at hnd
  have hndl := (List.nodup_append.mp hnd).1
  have hndr := (List.nodup_append.mp hnd).2.1
  have hlr := (List.nodup_append.mp hnd).2.2
  have e1 := charCodeHelper_eq l [] [] bit0 hndl (by simp [keys])
  have e2 := charCodeHelper_eq r ([] ++ (rootPaths l).map (fun e => (e.1, [] ++ bit0 :: e.2)))
    [] bit1 hndr (by
      intro b hb
      rw [keys_append, keys_map_snd, keys_rootPaths]
      intro hmem
      rcases List.mem_append.mp hmem with h1 | h1
      · simp [keys] at h1
      · exact hlr h1 hb)
  simp only [createCharCodes, ne_eq, not_true_eq_false, if_false, e1, e2, rootPaths, hnl,
    Bool.false_eq_true]
  simp

/-! ## Root paths are free of prefixes -/

theorem rootPaths_pairwise (t : HuffmanTreeNode) :
    (rootPaths t).Pairwise (fun x y => ¬ x.2 <+: y.2 ∧ ¬ y.2 <+: x.2) := by
  induction t with
  | null => simp [rootPaths]
  | node v f l r ihl ihr =>
    by_cases h : (node v f l r).is_leaf = true
    · simp [rootPaths, h]
    · simp only [rootPaths, h, Bool.false_eq_true, if_false]
      rw [List.pairwise_append]
      refine ⟨?_, ?_, ?_⟩
      · rw [List.pairwise_map]
        refine ihl.imp ?_
        intro a b hab
        simpa [List.cons_prefix_cons] using hab
      · rw [List.pairwise_map]
        refine ihr.imp ?_
        intro a b hab
        simpa [List.cons_prefix_cons] using hab
      · intro a ha b hb
        obtain ⟨a2, _, rfl⟩ := List.mem_map.mp ha
        obtain ⟨b2, _, rfl⟩ := List.mem_map.mp hb
        have h01 : ¬ (bit0 : Byte) = bit1 := by decide
        have h10 : ¬ (bit1 : Byte) = bit0 := by decide
        simp [List.cons_prefix_cons, h01, h10]

theorem rootPaths_no_prefix (t : HuffmanTreeNode)
    (a b : Byte) (ca cb : List Byte) (ha : (a, ca) ∈ rootPaths t) (hb : (b, cb) ∈ rootPaths t)
    (hab : a ≠ b) : ¬ ca <+: cb := by
  have hsym : Symmetric (fun x y : Byte × List Byte => ¬ x.2 <+: y.2 ∧ ¬ y.2 <+: x.2) :=
    fun x y h => ⟨h.2, h.1⟩
  have h := (rootPaths_pairwise t).forall hsym ha hb (by
    intro h0
    exact hab (congrArg Prod.fst h0))
  exact h.1

/-- C2. Prefix-free: for an input with at least two distinct byte values,
`buildTree` and `createCharCodes` return, and in the resulting code table the
code of a byte is never a prefix of the code of another byte. -/
theorem codes_prefix_free (c : Containers) (hc : c.Lawful) (S : List Byte)
    (h2 : ∃ x ∈ S, ∃ y ∈ S, x ≠ y) :
    ∃ root codeMap charCode, buildTree c (count_freqs S []) = some root ∧
      createCharCodes root [] = some (codeMap, charCode) ∧
      ∀ a ca b cb, (a, ca) ∈ codeMap → (b, cb) ∈ codeMap → a ≠ b → ¬ ca <+: cb := by
  obtain ⟨x, hx, y, hy, hxy⟩ := h2
  have hne : count_freqs S [] ≠ [] := by
    intro h0
    rw [(count_freqs_eq_nil_iff S).mp h0] at hx
    simp at hx
  obtain ⟨root, hroot, hfull, hval, hperm⟩ := buildTree_shape c hc _ hne
  have hnd : (leafVals root).Nodup :=
    hperm.nodup_iff.mpr (nodup_keys_count_freqs S [] (by simp [keys]))
  have hxl : x ∈ leafVals root := hperm.symm.subset ((mem_keys_count_freqs S x).mpr hx)
  have hyl : y ∈ leafVals root := hperm.symm.subset ((mem_keys_count_freqs S y).mpr hy)
  cases root with
  | null => simp [isFull] at hfull
  | node v f l r =>
    have hnl : (node v f l r).is_leaf = false := by
      by_contra h
      have h1 : (node v f l r).is_leaf = true := by simpa using h
      simp only [leafVals, h1, if_true, List.mem_singleton] at hxl hyl
      exact hxy (hxl.trans hyl.symm)
    have hv : v = NUL := by
      rcases hval with h | h
      · rw [hnl] at h; exact absurd h (by simp)
      · exact h
    refine ⟨node v f l r, rootPaths (node v f l r), [], hroot,
      createCharCodes_internal v f l r hv hnd hnl, ?_⟩
    intro a ca b cb ha hb hab
    exact rootPaths_no_prefix _ a b ca cb ha hb hab

/-- Witness of C2 on the input `"ab"` with the list containers. -/
theorem codes_prefix_free_witness :
    listContainers.Lawful ∧ (∃ x ∈ [(97 : Byte), 98], ∃ y ∈ [(97 : Byte), 98], x ≠ y) ∧
    ∃ root codeMap charCode, buildTree listContainers (count_freqs [97, 98] []) = some root ∧
      createCharCodes root [] = some (codeMap, charCode) ∧
      ∀ a ca b cb, (a, ca) ∈ codeMap → (b, cb) ∈ codeMap → a ≠ b → ¬ ca <+: cb :=
  ⟨listContainers_lawful, by decide,
    codes_prefix_free listContainers listContainers_lawful [97, 98] (by decide)⟩

/-! ## Serialization -/

theorem getD_append_cons (pre rest : List Byte) (x d : Byte) :
    (pre ++ x :: rest).getD pre.length d = x := by
  induction pre with
  | nil => rfl
  | cons a as ih => simpa using ih

theorem serialize_tree_leaf {v : Byte} {f : Nat} {l r : HuffmanTreeNode}
    (h : (node v f l r).is_leaf = true) : serialize_tree (node v f l r) = [tokL, v] := by
  simp [serialize_tree, h]

theorem serialize_tree_internal {v : Byte} {f : Nat} {l r : HuffmanTreeNode}
    (h : (node v f l r).is_leaf = false) :
    serialize_tree (node v f l r) = tokI :: (serialize_tree l ++ serialize_tree r) := by
  simp [serialize_tree, h]

theorem serialize_tree_pos {t : HuffmanTreeNode} (h : t ≠ null) :
    0 < (serialize_tree t).length := by
  cases t with
  | null => exact absurd rfl h
  | node v f l r =>
    by_cases hl : (node v f l r).is_leaf = true
    · simp [serialize_tree, hl]
    · simp [serialize_tree, hl]

theorem height_le_serialize (t : HuffmanTreeNode) (hf : isFull t = true) :
    height t ≤ (serialize_tree t).length := by
  induction t with
  | null => simp [height]
  | node v f l r ihl ihr =>
    by_cases h : (node v f l r).is_leaf = true
    · obtain ⟨rfl, rfl⟩ := (is_leaf_iff v f l r).mp h
      simp [height, serialize_tree, is_leaf]
    · have hf2 : isFull l = true ∧ isFull r = true := by
        simpa [isFull, h] using hf
      have h1 := ihl hf2.1
      have h2 := ihr hf2.2
      simp only [height, serialize_tree, h, Bool.false_eq_true, if_false, List.length_cons,
        List.length_append]
      omega

/-- On the serialization of a full tree, placed anywhere in a string, enough
fuel lets `deserialize_helper` return a tree of the same shape and leave the
cursor on the last character of the serialization. -/
theorem deserialize_helper_serialize (t : HuffmanTreeNode) :
    ∀ (pre rest : List Byte) (fuel : Nat), isFull t = true → height t ≤ fuel →
      ∃ t2, deserialize_helper (pre ++ serialize_tree t ++ rest) fuel pre.length =
          some (t2, pre.length + (serialize_tree t).length - 1) ∧
        sameShape t t2 = true := by
  induction t with
  | null => intro pre rest fuel hf; simp [isFull] at hf
  | node v f l r ihl ihr =>
    intro pre rest fuel hf hfuel
    cases fuel with
    | zero => simp [height] at hfuel
    | succ fuel =>
      by_cases h : (node v f l r).is_leaf = true
      · obtain ⟨rfl, rfl⟩ := (is_leaf_iff v f l r).mp h
        refine ⟨node v 0 null null, ?_, by simp [sameShape, is_leaf]⟩
        have hs : pre ++ serialize_tree (node v f null null) ++ rest
            = pre ++ tokL :: v :: rest := by simp [serialize_tree, is_leaf]
        have hs2 : pre ++ tokL :: v :: rest = (pre ++ [tokL]) ++ v :: rest := by simp
        have hg1 : (pre ++ tokL :: v :: rest).getD pre.length NUL = tokL :=
          getD_append_cons pre _ tokL NUL
        have hg2 : (pre ++ tokL :: v :: rest).getD (pre.length + 1) NUL = v := by
          rw [hs2]
          have := getD_append_cons (pre ++ [tokL]) rest v NUL
          simpa using this
        have hlen : ¬ pre.length ≥ (pre ++ tokL :: v :: rest).length := by simp
        have hLI : ¬ (tokL : Byte) = tokI := by decide
        rw [hs]
        simp only [deserialize_helper, hlen, if_false, hg1, hLI, if_true, hg2]
        simp [serialize_tree, is_leaf]
      · have hnl : (node v f l r).is_leaf = false := by simpa using h
        have hf2 : isFull l = true ∧ isFull r = true := by
          simpa [isFull, h] using hf
        have hh : height l ≤ fuel ∧ height r ≤ fuel := by
          simp only [height] at hfuel
          omega
        obtain ⟨l2, hl2, hsl⟩ := ihl (pre ++ [tokI]) (serialize_tree r ++ rest) fuel hf2.1 hh.1
        obtain ⟨r2, hr2, hsr⟩ := ihr (pre ++ [tokI] ++ serialize_tree l) rest fuel hf2.2 hh.2
        refine ⟨node NUL 0 l2 r2, ?_, by simp [sameShape, hsl, hsr, hnl]⟩
        have hs : pre ++ serialize_tree (node v f l r) ++ rest
            = pre ++ tokI :: (serialize_tree l ++ serialize_tree r ++ rest) := by
          simp [serialize_tree_internal hnl]
        have hsa : pre ++ [tokI] ++ serialize_tree l ++ (serialize_tree r ++ rest)
            = pre ++ tokI :: (serialize_tree l ++ serialize_tree r ++ rest) := by simp
        have hsb : pre ++ [tokI] ++ serialize_tree l ++ serialize_tree r ++ rest
            = pre ++ tokI :: (serialize_tree l ++ serialize_tree r ++ rest) := by simp
        rw [hsa] at hl2
        rw [hsb] at hr2
        have hg1 : (pre ++ tokI :: (serialize_tree l ++ serialize_tree r ++ rest)).getD
            pre.length NUL = tokI := getD_append_cons pre _ tokI NUL
        have hlen : ¬ pre.length ≥
            (pre ++ tokI :: (serialize_tree l ++ serialize_tree r ++ rest)).length := by simp
        have hpl := serialize_tree_pos (isFull_ne_null hf2.1)
        have hpr := serialize_tree_pos (isFull_ne_null hf2.2)
        have hi1 : (pre ++ [tokI]).length + (serialize_tree l).length - 1 + 1
            = (pre ++ [tokI] ++ serialize_tree l).length := by
          simp only [List.length_append, List.length_singleton]; omega
        have hl3 : (pre ++ [tokI]).length = pre.length + 1 := by simp
        rw [hs]
        simp only [deserialize_helper, hlen, if_false, hg1, if_true]
        rw [← hl3, hl2]
        simp only
        rw [hi1, hr2]
        simp only [Option.some.injEq, Prod.mk.injEq, true_and, List.length_append,
          List.length_singleton, serialize_tree_internal hnl, List.length_cons, List.length_nil]
        omega

theorem deserialize_serialize (t : HuffmanTreeNode) (hf : isFull t = true) :
    ∃ t2, deserialize_tree (serialize_tree t) = some t2 ∧ sameShape t t2 = true := by
  obtain ⟨t2, h1, h2⟩ := deserialize_helper_serialize t [] [] ((serialize_tree t).length + 1) hf
    (Nat.le_succ_of_le (height_le_serialize t hf))
  refine ⟨t2, ?_, h2⟩
  simp only [List.nil_append, List.append_nil, List.length_nil] at h1
  simp [deserialize_tree, h1]

/-- C3. Serialization round trip: for a non-empty frequency table `buildTree`
returns a tree, and deserializing its serialization returns a tree of the same
shape with the same byte at every leaf. -/
theorem serialize_round_trip (c : Containers) (hc : c.Lawful) (m : FreqMap) (hm : m ≠ []) :
    ∃ T T2, buildTree c m = some T ∧ deserialize_tree (serialize_tree T) = some T2 ∧
      sameShape T T2 = true := by
  obtain ⟨root, hroot, hfull, _, _⟩ := buildTree_shape c hc m hm
  obtain ⟨t2, h1, h2⟩ := deserialize_serialize root hfull
  exact ⟨root, t2, hroot, h1, h2⟩

/-- Witness of C3 on the table of the input `"ILL"`, whose leaves hold the
bytes `'I'` and `'L'`. -/
theorem serialize_round_trip_witness :
    listContainers.Lawful ∧ count_freqs [73, 76, 76] [] ≠ [] ∧
    ∃ T T2, buildTree listContainers (count_freqs [73, 76, 76] []) = some T ∧
      deserialize_tree (serialize_tree T) = some T2 ∧ sameShape T T2 = true :=
  ⟨listContainers_lawful, by decide,
    serialize_round_trip listContainers listContainers_lawful (count_freqs [73, 76, 76] [])
      (by decide)⟩

/-! ## The loop of `binaryToASCII` -/

theorem rootPaths_ne_nil_of_internal {root : HuffmanTreeNode} (hnl : root.is_leaf = false)
    {e : Byte × List Byte} (he : e ∈ rootPaths root) : e.2 ≠ [] := by
  cases root with
  | null => simp [rootPaths] at he
  | node v f l r =>
    simp only [rootPaths, hnl, Bool.false_eq_true, if_false, List.mem_append, List.mem_map] at he
    rcases he with ⟨a, _, rfl⟩ | ⟨a, _, rfl⟩ <;> simp

/-- One code: from a node `curr` below which the leaf `e` lies, with the cursor
at the first bit of the path to `e`, the loop walks down the path and emits the
byte of the leaf; it then returns if the input is exhausted and otherwise goes
on from the root. -/
theorem loop_code (root : HuffmanTreeNode) (curr : HuffmanTreeNode) :
    ∀ (e : Byte × List Byte), e ∈ rootPaths curr →
      ∀ (pre rest res : List Byte) (n : Nat),
        binaryToASCII_loop root (pre ++ e.2 ++ rest) (n + e.2.length + 1) curr pre.length res =
          if rest = [] then some (Except.ok (res ++ [e.1]))
          else binaryToASCII_loop root (pre ++ e.2 ++ rest) n root
            (pre.length + e.2.length) (res ++ [e.1]) := by
  induction curr with
  | null => intro e he; simp [rootPaths] at he
  | node v f l r ihl ihr =>
    intro e he pre rest res n
    by_cases h : (node v f l r).is_leaf = true
    · simp only [rootPaths, h, if_true, List.mem_singleton] at he
      subst he
      have hidx : pre.length = (pre ++ rest).length ↔ rest = [] := by
        simp [List.length_eq_zero]
      simp only [List.append_nil, List.length_nil, Nat.add_zero]
      rw [binaryToASCII_loop]
      simp only [h, if_true, hidx]
      have hle : pre.length ≤ (pre ++ rest).length := by simp
      simp [hle]
    · have hnl : (node v f l r).is_leaf = false := by simpa using h
      simp only [rootPaths, hnl, Bool.false_eq_true, if_false, List.mem_append,
        List.mem_map] at he
      rcases he with ⟨a, ha, rfl⟩ | ⟨a, ha, rfl⟩
      · have ih := ihl a ha (pre ++ [bit0]) rest res n
        have hs : pre ++ [bit0] ++ a.2 ++ rest = pre ++ (bit0 :: a.2) ++ rest := by simp
        rw [hs] at ih
        have hg : (pre ++ (bit0 :: a.2) ++ rest).getD pre.length NUL = bit0 := by
          have := getD_append_cons pre (a.2 ++ rest) bit0 NUL
          simpa using this
        have hle : pre.length ≤ (pre ++ (bit0 :: a.2) ++ rest).length := by simp
        have hne : ¬ pre.length = (pre ++ (bit0 :: a.2) ++ rest).length := by simp
        have hfuel : n + (bit0 :: a.2).length + 1 = (n + a.2.length + 1) + 1 := by
          simp; omega
        simp only [hfuel]
        rw [binaryToASCII_loop]
        simp only [hle, if_true, hnl, Bool.false_eq_true, if_false, hne, hg]
        have hl : (pre ++ [bit0]).length = pre.length + 1 := by simp
        rw [hl] at ih
        rw [ih]
        simp only [List.length_cons]
        have : pre.length + 1 + a.2.length = pre.length + (a.2.length + 1) := by omega
        rw [this]
      · have ih := ihr a ha (pre ++ [bit1]) rest res n
        have hs : pre ++ [bit1] ++ a.2 ++ rest = pre ++ (bit1 :: a.2) ++ rest := by simp
        rw [hs] at ih
        have hg : (pre ++ (bit1 :: a.2) ++ rest).getD pre.length NUL = bit1 := by
          have := getD_append_cons pre (a.2 ++ rest) bit1 NUL
          simpa using this
        have h10 : ¬ (bit1 : Byte) = bit0 := by decide
        have hle : pre.length ≤ (pre ++ (bit1 :: a.2) ++ rest).length := by simp
        have hne : ¬ pre.length = (pre ++ (bit1 :: a.2) ++ rest).length := by simp
        have hfuel : n + (bit1 :: a.2).length + 1 = (n + a.2.length + 1) + 1 := by
          simp; omega
        simp only [hfuel]
        rw [binaryToASCII_loop]
        simp only [hle, if_true, hnl, Bool.false_eq_true, if_false, hne, hg, h10]
        have hl : (pre ++ [bit1]).length = pre.length + 1 := by simp
        rw [hl] at ih
        rw [ih]
        simp only [List.length_cons]
        have : pre.length + 1 + a.2.length = pre.length + (a.2.length + 1) := by omega
        rw [this]

/-- The number of loop iterations that decode a sequence of codes: one per bit
and one per emitted byte. -/
theorem loop_codes (root : HuffmanTreeNode)
    (ps : List (Byte × List Byte)) :
    (∀ e ∈ ps, e ∈ rootPaths root) →
      ∀ (pre tail res : List Byte) (n : Nat), tail ≠ [] →
        binaryToASCII_loop root (pre ++ ps.flatMap Prod.snd ++ tail)
            (n + ((ps.flatMap Prod.snd).length + ps.length)) root pre.length res =
          binaryToASCII_loop root (pre ++ ps.flatMap Prod.snd ++ tail) n root
            (pre.length + (ps.flatMap Prod.snd).length) (res ++ ps.map Prod.fst) := by
  induction ps with
  | nil => intro _ pre tail res n _; simp
  | cons e es ih =>
    intro hps pre tail res n htail
    have he := hps e (List.mem_cons_self _ _)
    have hes : ∀ x ∈ es, x ∈ rootPaths root := fun x hx => hps x (List.mem_cons_of_mem _ hx)
    have h1 := loop_code root root e he pre (es.flatMap Prod.snd ++ tail) res
      (n + ((es.flatMap Prod.snd).length + es.length))
    have hrest : ¬ (es.flatMap Prod.snd ++ tail = []) := by simp [htail]
    simp only [hrest, if_false] at h1
    have h2 := ih hes (pre ++ e.2) tail (res ++ [e.1]) n htail
    have hs : pre ++ (e :: es).flatMap Prod.snd ++ tail
        = pre ++ e.2 ++ (es.flatMap Prod.snd ++ tail) := by simp
    have hs2 : pre ++ e.2 ++ es.flatMap Prod.snd ++ tail
        = pre ++ e.2 ++ (es.flatMap Prod.snd ++ tail) := by simp
    rw [hs2] at h2
    have hfuel : n + (((e :: es).flatMap Prod.snd).length + (e :: es).length)
        = n + ((es.flatMap Prod.snd).length + es.length) + e.2.length + 1 := by
      simp only [List.flatMap_cons, List.length_append, List.length_cons]; omega
    rw [hs, hfuel, h1]
    have hl : (pre ++ e.2).length = pre.length + e.2.length := by simp
    rw [hl] at h2
    rw [h2]
    simp only [List.flatMap_cons, List.length_append, List.map_cons, List.append_assoc,
      List.singleton_append, Nat.add_assoc]

/-- A walk that ends on an internal node when the input ends raises the
mismatch error. -/
theorem loop_truncated (root : HuffmanTreeNode) (p : List Byte) :
    ∀ (curr : HuffmanTreeNode) (pre res : List Byte) (fuel : Nat),
      descend curr p ≠ null → (descend curr p).is_leaf = false → p.length + 1 ≤ fuel →
      binaryToASCII_loop root (pre ++ p) fuel curr pre.length res =
        some (Except.error mismatchError) := by
  induction p with
  | nil =>
    intro curr pre res fuel hnn hnl hfuel
    cases fuel with
    | zero => simp at hfuel
    | succ fuel =>
      cases curr with
      | null => simp [descend] at hnn
      | node v f l r =>
        simp only [descend] at hnl
        simp [binaryToASCII_loop, hnl]
  | cons b bs ih =>
    intro curr pre res fuel hnn hnl hfuel
    cases fuel with
    | zero => simp at hfuel
    | succ fuel =>
      cases curr with
      | null => simp [descend] at hnn
      | node v f l r =>
        have hcl : (node v f l r).is_leaf = false := by
          by_contra h
          have h1 : (node v f l r).is_leaf = true := by simpa using h
          obtain ⟨rfl, rfl⟩ := (is_leaf_iff v f l r).mp h1
          cases bs <;> simp [descend] at hnn
        have hg : (pre ++ b :: bs).getD pre.length NUL = b := getD_append_cons pre bs b NUL
        have hle : pre.length ≤ (pre ++ b :: bs).length := by simp
        have hne : ¬ pre.length = (pre ++ b :: bs).length := by simp
        have hs : pre ++ b :: bs = (pre ++ [b]) ++ bs := by simp
        have hl : (pre ++ [b]).length = pre.length + 1 := by simp
        have hf2 : bs.length + 1 ≤ fuel := by simp at hfuel; omega
        rw [binaryToASCII_loop]
        simp only [hle, if_true, hcl, Bool.false_eq_true, if_false, hne, hg]
        by_cases hb : b = bit0
        · subst hb
          simp only [if_true]
          simp only [descend, if_true] at hnn hnl
          have := ih l (pre ++ [bit0]) res fuel hnn hnl hf2
          rw [hl] at this
          rw [hs]
          exact this
        · simp only [hb, if_false]
          simp only [descend, hb, if_false] at hnn hnl
          have := ih r (pre ++ [b]) res fuel hnn hnl hf2
          rw [hl] at this
          rw [hs]
          exact this

/-- A walk that steps into a missing child ends the loop: the bytes emitted so
far are returned and no error is raised, whatever follows in the input. -/
theorem loop_null (root : HuffmanTreeNode) (p : List Byte) :
    ∀ (curr : HuffmanTreeNode) (pre rest res : List Byte) (fuel : Nat),
      descend curr p = null → (∀ q, q <+: p → (descend curr q).is_leaf = false) →
      p.length + 2 ≤ fuel →
      binaryToASCII_loop root (pre ++ p ++ rest) fuel curr pre.length res =
        some (Except.ok res) := by
  have hnull : ∀ (bin : List Byte) (idx : Nat) (res : List Byte) (fuel : Nat), 2 ≤ fuel →
      idx ≤ bin.length →
      binaryToASCII_loop root bin fuel null idx res = some (Except.ok res) := by
    intro bin idx res fuel hfuel hidx
    obtain ⟨f, rfl⟩ : ∃ f, fuel = f + 2 := ⟨fuel - 2, by omega⟩
    rw [binaryToASCII_loop]
    simp only [hidx, if_true]
    rw [binaryToASCII_loop]
    simp
  induction p with
  | nil =>
    intro curr pre rest res fuel hd _ hfuel
    simp only [descend] at hd
    subst hd
    exact hnull _ _ _ _ (by simpa using hfuel) (by simp)
  | cons b bs ih =>
    intro curr pre rest res fuel hd hq hfuel
    cases curr with
    | null => exact hnull _ _ _ _ (by omega) (by simp)
    | node v f l r =>
      have hcl : (node v f l r).is_leaf = false := hq [] (List.nil_prefix)
      cases fuel with
      | zero => simp at hfuel
      | succ fuel =>
        have hg : (pre ++ b :: bs ++ rest).getD pre.length NUL = b := by
          have := getD_append_cons pre (bs ++ rest) b NUL
          simpa using this
        have hle : pre.length ≤ (pre ++ b :: bs ++ rest).length := by simp
        have hne : ¬ pre.length = (pre ++ b :: bs ++ rest).length := by simp
        have hs : pre ++ b :: bs ++ rest = (pre ++ [b]) ++ bs ++ rest := by simp
        have hl : (pre ++ [b]).length = pre.length + 1 := by simp
        have hf2 : bs.length + 2 ≤ fuel := by simp at hfuel; omega
        rw [binaryToASCII_loop]
        simp only [hle, if_true, hcl, Bool.false_eq_true, if_false, hne, hg]
        by_cases hb : b = bit0
        · subst hb
          simp only [if_true]
          simp only [descend, if_true] at hd
          have hq2 : ∀ q, q <+: bs → (descend l q).is_leaf = false := by
            intro q hqb
            have := hq (bit0 :: q) ((List.cons_prefix_cons).mpr ⟨rfl, hqb⟩)
            simpa [descend] using this
          have := ih l (pre ++ [bit0]) rest res fuel hd hq2 hf2
          rw [hl] at this
          rw [hs]
          exact this
        · simp only [hb, if_false]
          simp only [descend, hb, if_false] at hd
          have hq2 : ∀ q, q <+: bs → (descend r q).is_leaf = false := by
            intro q hqb
            have := hq (b :: q) ((List.cons_prefix_cons).mpr ⟨rfl, hqb⟩)
            simpa [descend, hb] using this
          have := ih r (pre ++ [b]) rest res fuel hd hq2 hf2
          rw [hl] at this
          rw [hs]
          exact this

/-! ## `binaryToASCII` -/

theorem descend_nil (t : HuffmanTreeNode) : descend t [] = t := by
  cases t <;> rfl

theorem length_le_flatMap_snd (ps : List (Byte × List Byte)) (h : ∀ e ∈ ps, e.2 ≠ []) :
    ps.length ≤ (ps.flatMap Prod.snd).length := by
  induction ps with
  | nil => simp
  | cons e es ih =>
    have h1 := ih (fun x hx => h x (List.mem_cons_of_mem _ hx))
    have h2 : 0 < e.2.length := List.length_pos.mpr (h e (List.mem_cons_self _ _))
    simp only [List.flatMap_cons, List.length_append, List.length_cons]
    omega

/-- With an exact cursor, on a tree whose root is internal, a bit-string made of
complete codes followed by at least one bit whose walk from the root ends on an
internal node makes `binaryToASCII` raise the mismatch error. -/
theorem truncation_detected (root : HuffmanTreeNode) (hroot : root.is_leaf = false)
    (ps : List (Byte × List Byte)) (hps : ∀ e ∈ ps, e ∈ rootPaths root)
    (p : List Byte) (hp : p ≠ []) (hnn : descend root p ≠ null)
    (hnl : (descend root p).is_leaf = false) :
    binaryToASCII root (ps.flatMap Prod.snd ++ p) = some (Except.error mismatchError) := by
  have hk := length_le_flatMap_snd ps (fun e he => rootPaths_ne_nil_of_internal hroot (hps e he))
  have h1 := loop_codes root ps hps [] p []
    (2 * (ps.flatMap Prod.snd ++ p).length + 3 - ((ps.flatMap Prod.snd).length + ps.length)) hp
  have hfuel : 2 * (ps.flatMap Prod.snd ++ p).length + 3
        - ((ps.flatMap Prod.snd).length + ps.length)
        + ((ps.flatMap Prod.snd).length + ps.length)
      = 2 * (ps.flatMap Prod.snd ++ p).length + 3 := by
    simp only [List.length_append]; omega
  rw [hfuel] at h1
  simp only [List.nil_append, List.length_nil, Nat.zero_add] at h1
  unfold binaryToASCII
  rw [h1]
  apply loop_truncated root p root _ _ _ hnn hnl
  simp only [List.length_append]; omega

/-- A non-empty sequence of codes of a tree whose root is internal is decoded
into the bytes of its leaves. -/
theorem binaryToASCII_codes (root : HuffmanTreeNode) (hroot : root.is_leaf = false)
    (ps : List (Byte × List Byte)) (hps : ∀ e ∈ ps, e ∈ rootPaths root) (hne : ps ≠ []) :
    binaryToASCII root (ps.flatMap Prod.snd) = some (Except.ok (ps.map Prod.fst)) := by
  obtain ⟨qs, e, rfl⟩ : ∃ qs e, ps = qs ++ [e] :=
    ⟨ps.dropLast, ps.getLast hne, (List.dropLast_append_getLast hne).symm⟩
  have hqs : ∀ x ∈ qs, x ∈ rootPaths root := fun x hx => hps x (List.mem_append_left _ hx)
  have he : e ∈ rootPaths root := hps e (by simp)
  have hee : e.2 ≠ [] := rootPaths_ne_nil_of_internal hroot he
  have hk := length_le_flatMap_snd qs (fun x hx => rootPaths_ne_nil_of_internal hroot (hqs x hx))
  have hbin : (qs ++ [e]).flatMap Prod.snd = qs.flatMap Prod.snd ++ e.2 := by simp
  have h1 := loop_codes root qs hqs [] e.2 []
    (2 * (qs.flatMap Prod.snd ++ e.2).length + 3 - ((qs.flatMap Prod.snd).length + qs.length)) hee
  have hfuel : 2 * (qs.flatMap Prod.snd ++ e.2).length + 3
        - ((qs.flatMap Prod.snd).length + qs.length)
        + ((qs.flatMap Prod.snd).length + qs.length)
      = 2 * (qs.flatMap Prod.snd ++ e.2).length + 3 := by
    simp only [List.length_append]; omega
  rw [hfuel] at h1
  simp only [List.nil_append, List.length_nil, Nat.zero_add] at h1
  unfold binaryToASCII
  rw [hbin, h1]
  have h2 := loop_code root root e he (qs.flatMap Prod.snd) [] (qs.map Prod.fst)
    (2 * (qs.flatMap Prod.snd ++ e.2).length + 3 - ((qs.flatMap Prod.snd).length + qs.length)
      - e.2.length - 1)
  have hfuel2 : 2 * (qs.flatMap Prod.snd ++ e.2).length + 3
        - ((qs.flatMap Prod.snd).length + qs.length) - e.2.length - 1 + e.2.length + 1
      = 2 * (qs.flatMap Prod.snd ++ e.2).length + 3
        - ((qs.flatMap Prod.snd).length + qs.length) := by
    simp only [List.length_append]; omega
  rw [hfuel2] at h2
  simp only [List.append_nil, if_true] at h2
  rw [h2]
  simp

/-- With an exact cursor, a walk that follows a bit into a missing child is not
reported: after any complete codes, `binaryToASCII` returns the bytes decoded so
far and raises no error, whatever bits follow. -/
theorem missing_child_returns (root : HuffmanTreeNode)
    (ps : List (Byte × List Byte)) (hps : ∀ e ∈ ps, e ∈ rootPaths root)
    (p rest : List Byte) (hp : p ≠ []) (hd : descend root p = null)
    (hq : ∀ q, q <+: p → (descend root q).is_leaf = false) :
    binaryToASCII root (ps.flatMap Prod.snd ++ p ++ rest) =
      some (Except.ok (ps.map Prod.fst)) := by
  have hroot : root.is_leaf = false := by
    have h0 := hq [] List.nil_prefix
    rwa [descend_nil] at h0
  have hk := length_le_flatMap_snd ps (fun e he => rootPaths_ne_nil_of_internal hroot (hps e he))
  have htail : p ++ rest ≠ [] := by simp [hp]
  have h1 := loop_codes root ps hps [] (p ++ rest) []
    (2 * (ps.flatMap Prod.snd ++ p ++ rest).length + 3
      - ((ps.flatMap Prod.snd).length + ps.length)) htail
  have hfuel : 2 * (ps.flatMap Prod.snd ++ p ++ rest).length + 3
        - ((ps.flatMap Prod.snd).length + ps.length)
        + ((ps.flatMap Prod.snd).length + ps.length)
      = 2 * (ps.flatMap Prod.snd ++ p ++ rest).length + 3 := by
    simp only [List.length_append]; omega
  have hassoc : ps.flatMap Prod.snd ++ (p ++ rest) = ps.flatMap Prod.snd ++ p ++ rest := by simp
  simp only [List.nil_append, List.length_nil, Nat.zero_add] at h1
  rw [hassoc, hfuel] at h1
  unfold binaryToASCII
  rw [h1]
  have h2 := loop_null root p root (ps.flatMap Prod.snd) rest (ps.map Prod.fst)
    (2 * (ps.flatMap Prod.snd ++ p ++ rest).length + 3
      - ((ps.flatMap Prod.snd).length + ps.length)) hd hq (by
        simp only [List.length_append]; omega)
  rw [h2]

/-- C8. Empty input: `count_freqs` leaves the map empty and `encoder` emits the
notice and returns without reaching `writeZapFile`. -/
theorem encoder_empty_input (c : Containers) (inputFile : String) :
    count_freqs [] [] = [] ∧
    encoder c inputFile [] =
      some ⟨inputFile ++ " is empty and cannot be compressed.\n", none⟩ := by
  refine ⟨rfl, ?_⟩
  simp [encoder, count_freqs, emptyNotice]

/-! ## The round trip -/

theorem count_freqs_replicate (b : Byte) (n k : Nat) :
    count_freqs (List.replicate n b) [(b, k)] = [(b, k + n)] := by
  induction n generalizing k with
  | zero => simp [count_freqs]
  | succ n ih =>
    rw [List.replicate_succ, count_freqs_cons]
    have h1 : incrFreq b [(b, k)] = [(b, k + 1)] := by simp [incrFreq]
    have h2 : k + 1 + n = k + (n + 1) := by omega
    rw [h1, ih, h2]

theorem count_freqs_replicate_succ (b : Byte) (n : Nat) :
    count_freqs (List.replicate (n + 1) b) [] = [(b, n + 1)] := by
  rw [List.replicate_succ, count_freqs_cons]
  have h1 : incrFreq b [] = [(b, 1)] := rfl
  have h2 : 1 + n = n + 1 := by omega
  rw [h1, count_freqs_replicate, h2]

theorem foldl_append_eq {α : Type} (g : α → List Byte) (S : List α) (init : List Byte) :
    S.foldl (fun acc x => acc ++ g x) init = init ++ S.flatMap g := by
  induction S generalizing init with
  | nil => simp
  | cons a s ih => simp [ih]

theorem asciiToBinary_eq (codeMap : CodeMap) (S : List Byte) :
    asciiToBinary codeMap S = S.flatMap (codeOf codeMap) := by
  simp [asciiToBinary, foldl_append_eq]

theorem sameShape_null_right (t : HuffmanTreeNode) (h : sameShape t null = true) : t = null := by
  cases t with
  | null => rfl
  | node _ _ _ _ => simp [sameShape] at h

theorem sameShape_null_left (t : HuffmanTreeNode) (h : sameShape null t = true) : t = null := by
  cases t with
  | null => rfl
  | node _ _ _ _ => simp [sameShape] at h

/-- Trees of the same shape have the same leaves with the same root paths. -/
theorem sameShape_rootPaths (t : HuffmanTreeNode) :
    ∀ t2, sameShape t t2 = true → rootPaths t2 = rootPaths t ∧ t2.is_leaf = t.is_leaf := by
  induction t with
  | null =>
    intro t2 h
    rw [sameShape_null_left t2 h]
    exact ⟨rfl, rfl⟩
  | node v f l r ihl ihr =>
    intro t2 h
    cases t2 with
    | null => simp [sameShape] at h
    | node w g l2 r2 =>
      simp only [sameShape, Bool.and_eq_true, Bool.or_eq_true, Bool.not_eq_true',
        beq_iff_eq] at h
      obtain ⟨⟨hl, hr⟩, hv⟩ := h
      have hleaf : (node w g l2 r2).is_leaf = (node v f l r).is_leaf := by
        by_cases h1 : (node v f l r).is_leaf = true
        · obtain ⟨rfl, rfl⟩ := (is_leaf_iff v f l r).mp h1
          rw [sameShape_null_left l2 hl, sameShape_null_left r2 hr]
          rfl
        · have h2 : (node v f l r).is_leaf = false := by simpa using h1
          rw [h2]
          by_contra h3
          have h4 : (node w g l2 r2).is_leaf = true := by simpa using h3
          obtain ⟨rfl, rfl⟩ := (is_leaf_iff w g l2 r2).mp h4
          rw [sameShape_null_right l hl, sameShape_null_right r hr] at h2
          simp [is_leaf] at h2
      refine ⟨?_, hleaf⟩
      by_cases h1 : (node v f l r).is_leaf = true
      · have hvw : v = w := by
          rcases hv with h | h
          · rw [h1] at h; exact absurd h (by simp)
          · exact h
        subst hvw
        have h5 := hleaf.trans h1
        simp [rootPaths, h1, h5]
      · simp [rootPaths, h1, hleaf, (ihl l2 hl).1, (ihr r2 hr).1]

theorem lookup_of_mem_nodup {β : Type} (l : List (Byte × β)) (hnd : (keys l).Nodup)
    (k : Byte) (v : β) (h : (k, v) ∈ l) : l.lookup k = some v := by
  induction l with
  | nil => simp at h
  | cons e rest ih =>
    obtain ⟨k2, v2⟩ := e
    simp only [keys, List.map_cons, List.nodup_cons] at hnd
    rw [lookup_cons_ite]
    rcases List.mem_cons.mp h with h1 | h1
    · simp only [Prod.mk.injEq] at h1
      simp [h1.1, h1.2]
    · have hk : ¬ k = k2 := by
        intro h0
        subst h0
        exact hnd.1 (List.mem_map.mpr ⟨(k, v), h1, rfl⟩)
      simp only [hk, if_false]
      exact ih hnd.2 h1

theorem codeOf_rootPaths (t : HuffmanTreeNode) (hnd : (leafVals t).Nodup)
    (x : Byte) (hx : x ∈ leafVals t) :
    (x, codeOf (rootPaths t) x) ∈ rootPaths t := by
  rw [← keys_rootPaths] at hnd hx
  obtain ⟨e, he, rfl⟩ := List.mem_map.mp hx
  have h := lookup_of_mem_nodup (rootPaths t) hnd e.1 e.2 he
  simp only [codeOf, h]
  exact he

theorem leafVals_ne_nil (t : HuffmanTreeNode) (hf : isFull t = true) : leafVals t ≠ [] := by
  induction t with
  | null => simp [isFull] at hf
  | node v f l r ihl _ =>
    by_cases h : (node v f l r).is_leaf = true
    · simp [leafVals, h]
    · have hf2 : isFull l = true ∧ isFull r = true := by simpa [isFull, h] using hf
      simp [leafVals, h, ihl hf2.1]

theorem encoder_eq (c : Containers) (inputFile : String) (S : List Byte) (hS : S ≠ [])
    (root : HuffmanTreeNode) (codeMap : CodeMap) (charCode : List Byte)
    (hroot : buildTree c (count_freqs S []) = some root)
    (hcodes : createCharCodes root [] = some (codeMap, charCode)) :
    ∃ msg, encoder c inputFile S =
      some ⟨msg, some (serialize_tree root, asciiToBinary codeMap S)⟩ := by
  have hne : (count_freqs S []).isEmpty = false := by
    have := (count_freqs_eq_nil_iff S).not.mpr hS
    cases h : count_freqs S [] with
    | nil => exact absurd h this
    | cons _ _ => rfl
  refine ⟨"Success! Encoded given text using " ++
    toString (asciiToBinary codeMap S).length ++ " bits.\n", ?_⟩
  simp only [encoder, hne, Bool.false_eq_true, if_false, hroot, hcodes]

theorem roundTrip_eq (c : Containers) (S : List Byte) (hS : S ≠ [])
    (root : HuffmanTreeNode) (codeMap : CodeMap) (charCode : List Byte)
    (hroot : buildTree c (count_freqs S []) = some root)
    (hcodes : createCharCodes root [] = some (codeMap, charCode)) :
    roundTrip c S = decoder (serialize_tree root) (asciiToBinary codeMap S) := by
  obtain ⟨msg, h⟩ := encoder_eq c "" S hS root codeMap charCode hroot hcodes
  simp only [roundTrip, h]

theorem deserialize_tree_leaf (v : Byte) :
    deserialize_tree [tokL, v] = some (node v 0 null null) := by
  have hLI : ¬ (tokL : Byte) = tokI := by decide
  simp [deserialize_tree, deserialize_helper, hLI]

theorem createCharCodes_leaf (v : Byte) (f : Nat) :
    createCharCodes (node v f null null) [] =
      some (if v = NUL then [] else [(v, [bit0])], []) := by
  by_cases hv : v = NUL
  · subst hv
    simp [createCharCodes, charCodeHelper]
  · simp [createCharCodes, hv, assignCode]

theorem flatMap_const_length (S : List Byte) (g : Byte → List Byte) (code : List Byte)
    (h : ∀ x ∈ S, g x = code) : (S.flatMap g).length = S.length * code.length := by
  induction S with
  | nil => simp
  | cons a s ih =>
    have h1 := ih (fun x hx => h x (List.mem_cons_of_mem _ hx))
    simp only [List.flatMap_cons, List.length_append, h1, h a (List.mem_cons_self _ _),
      List.length_cons]
    rw [Nat.succ_mul]
    omega

/-- The round trip when the built tree is a single leaf: the decoder repeats
the byte of the leaf once per bit, and a leaf holding `'\0'` has no code. -/
theorem roundTrip_leaf (c : Containers) (S : List Byte) (hS : S ≠ []) (v : Byte) (f : Nat)
    (hroot : buildTree c (count_freqs S []) = some (node v f null null))
    (hall : ∀ x ∈ S, x = v) :
    roundTrip c S = some (Except.ok (if v = NUL then [] else S)) := by
  rw [roundTrip_eq c S hS _ _ _ hroot (createCharCodes_leaf v f)]
  have hser : serialize_tree (node v f null null) = [tokL, v] := rfl
  have hlen : (asciiToBinary (if v = NUL then [] else [(v, [bit0])]) S).length
      = if v = NUL then 0 else S.length := by
    rw [asciiToBinary_eq]
    by_cases hv : v = NUL
    · rw [flatMap_const_length S _ [] (by intro x _; simp [hv, codeOf])]
      simp [hv]
    · rw [flatMap_const_length S _ [bit0] (by
        intro x hx
        rw [hall x hx]
        simp [hv, codeOf])]
      simp [hv]
  rw [hser]
  simp only [decoder, deserialize_tree_leaf, is_leaf_leaf, if_true]
  rw [hlen]
  by_cases hv : v = NUL
  · rw [if_pos hv, if_pos hv]
    rfl
  · rw [if_neg hv, if_neg hv]
    rw [List.eq_replicate_iff.mpr ⟨rfl, hall⟩]
    simp

/-- The round trip when the built tree has an internal root: every byte of the
input is a leaf, its code is its root path, and the decoder walks the
deserialized tree back to the input. -/
theorem roundTrip_internal (c : Containers) (S : List Byte) (hS : S ≠ [])
    (root : HuffmanTreeNode) (hroot : buildTree c (count_freqs S []) = some root)
    (hfull : isFull root = true) (hnl : root.is_leaf = false) (hval : root.get_val = NUL)
    (hperm : (leafVals root).Perm (keys (count_freqs S []))) :
    roundTrip c S = some (Except.ok S) := by
  have hnd : (leafVals root).Nodup :=
    hperm.nodup_iff.mpr (nodup_keys_count_freqs S [] (by simp [keys]))
  cases root with
  | null => simp [isFull] at hfull
  | node v f l r =>
    have hcodes := createCharCodes_internal v f l r hval hnd hnl
    rw [roundTrip_eq c S hS _ _ _ hroot hcodes]
    obtain ⟨t2, hde, hss⟩ := deserialize_serialize (node v f l r) hfull
    obtain ⟨hpaths, hleaf⟩ := sameShape_rootPaths _ t2 hss
    rw [hnl] at hleaf
    have hbits : asciiToBinary (rootPaths (node v f l r)) S
        = (S.map (fun x => (x, codeOf (rootPaths (node v f l r)) x))).flatMap Prod.snd := by
      rw [asciiToBinary_eq, List.flatMap_map]
    have hps : ∀ e ∈ S.map (fun x => (x, codeOf (rootPaths (node v f l r)) x)),
        e ∈ rootPaths t2 := by
      intro e he
      obtain ⟨x, hx, rfl⟩ := List.mem_map.mp he
      rw [hpaths]
      exact codeOf_rootPaths _ hnd x
        (hperm.symm.subset ((mem_keys_count_freqs S x).mpr hx))
    have hdec := binaryToASCII_codes t2 hleaf _ hps (by simpa using hS)
    cases t2 with
    | null => simp [sameShape] at hss
    | node w g l2 r2 =>
      simp only [decoder, hde, hleaf, Bool.false_eq_true, if_false, hbits, hdec]
      simp [Function.comp_def]

/-- C1. The round trip as the code performs it: for every non-empty input the
encoder writes a tree and a bit-string and the decoder returns the input,
except that an input made of `'\0'` bytes only comes back as the empty string.
The claimed round trip therefore fails exactly on those inputs: the root test
`get_val() != '\0'` of `createCharCodes` takes a leaf holding `'\0'` for an
internal node and gives it no code. -/
theorem roundTrip_result (c : Containers) (hc : c.Lawful) (S : List Byte) (hS : S ≠ []) :
    roundTrip c S = some (Except.ok (if ∀ x ∈ S, x = NUL then [] else S)) := by
  have hne : count_freqs S [] ≠ [] := (count_freqs_eq_nil_iff S).not.mpr hS
  obtain ⟨root, hroot, hfull, hval, hperm⟩ := buildTree_shape c hc _ hne
  have hnd : (leafVals root).Nodup :=
    hperm.nodup_iff.mpr (nodup_keys_count_freqs S [] (by simp [keys]))
  have hmem : ∀ x, x ∈ leafVals root ↔ x ∈ S := fun x =>
    (hperm.mem_iff).trans (mem_keys_count_freqs S x)
  cases root with
  | null => simp [isFull] at hfull
  | node v f l r =>
    by_cases hl : (node v f l r).is_leaf = true
    · obtain ⟨rfl, rfl⟩ := (is_leaf_iff v f l r).mp hl
      have hall : ∀ x ∈ S, x = v := by
        intro x hx
        have := (hmem x).mpr hx
        simpa [leafVals, is_leaf] using this
      have hvS : v ∈ S := (hmem v).mp (by simp [leafVals, is_leaf])
      rw [roundTrip_leaf c S hS v f hroot hall]
      by_cases hv : v = NUL
      · have h1 : ∀ x ∈ S, x = NUL := fun x hx => (hall x hx).trans hv
        rw [if_pos hv, if_pos h1]
      · have h1 : ¬ ∀ x ∈ S, x = NUL := fun h => hv (h v hvS)
        rw [if_neg hv, if_neg h1]
    · have hnl : (node v f l r).is_leaf = false := by simpa using hl
      have hv : v = NUL := by
        rcases hval with h | h
        · exact absurd h hl
        · exact h
      rw [roundTrip_internal c S hS _ hroot hfull hnl hv hperm]
      have hf2 : isFull l = true ∧ isFull r = true := by simpa [isFull, hl] using hfull
      rw [leafVals_internal hnl] at hnd hmem
      obtain ⟨a, ha⟩ := List.exists_mem_of_ne_nil _ (leafVals_ne_nil l hf2.1)
      obtain ⟨b, hb⟩ := List.exists_mem_of_ne_nil _ (leafVals_ne_nil r hf2.2)
      have hab : a ≠ b := fun h => (List.nodup_append.mp hnd).2.2 ha (h ▸ hb)
      have h1 : ¬ ∀ x ∈ S, x = NUL := by
        intro h
        have h2 := h a ((hmem a).mp (List.mem_append_left _ ha))
        have h3 := h b ((hmem b).mp (List.mem_append_right _ hb))
        exact hab (h2.trans h3.symm)
      rw [if_neg h1]

/-- Witness of C1 at the failing input, one `'\0'` byte. -/
theorem roundTrip_result_witness :
    listContainers.Lawful ∧ [NUL] ≠ [] ∧
    roundTrip listContainers [NUL] = some (Except.ok []) :=
  ⟨listContainers_lawful, by decide,
    (roundTrip_result listContainers listContainers_lawful [NUL] (by decide)).trans
      (by simp)⟩

/-- C5. The single-symbol case as the code performs it: `N ≥ 1` copies of a byte
`b` are built into the single leaf holding `b`, and the round trip returns the
`N` copies when `b` is not `'\0'`; for `b = '\0'` the bit-string is empty and
the decoder returns the empty string. -/
theorem single_symbol_result (c : Containers) (hc : c.Lawful) (b : Byte) (N : Nat)
    (hN : 1 ≤ N) :
    buildTree c (count_freqs (List.replicate N b) []) = some (node b N null null) ∧
    roundTrip c (List.replicate N b) =
      some (Except.ok (if b = NUL then [] else List.replicate N b)) := by
  obtain ⟨n, rfl⟩ : ∃ n, N = n + 1 := ⟨N - 1, by omega⟩
  have hroot : buildTree c (count_freqs (List.replicate (n + 1) b) [])
      = some (node b (n + 1) null null) := by
    rw [count_freqs_replicate_succ]
    exact buildTree_single c hc b (n + 1)
  refine ⟨hroot, ?_⟩
  exact roundTrip_leaf c _ (by simp [List.replicate_succ]) b (n + 1) hroot
    (fun x hx => List.eq_of_mem_replicate hx)

/-- Witness of C5 at the failing input, three `'\0'` bytes. -/
theorem single_symbol_result_witness :
    listContainers.Lawful ∧ 1 ≤ 3 ∧
    buildTree listContainers (count_freqs (List.replicate 3 NUL) []) =
      some (node NUL 3 null null) ∧
    roundTrip listContainers (List.replicate 3 NUL) = some (Except.ok []) :=
  ⟨listContainers_lawful, by decide,
    (single_symbol_result listContainers listContainers_lawful NUL 3 (by decide)).1,
    (single_symbol_result listContainers listContainers_lawful NUL 3 (by decide)).2.trans
      (by simp)⟩

theorem rootPaths_bits (t : HuffmanTreeNode) :
    ∀ e ∈ rootPaths t, ∀ x ∈ e.2, x = bit0 ∨ x = bit1 := by
  induction t with
  | null => intro e he; simp [rootPaths] at he
  | node v f l r ihl ihr =>
    intro e he
    by_cases h : (node v f l r).is_leaf = true
    · simp only [rootPaths, h, if_true, List.mem_singleton] at he
      subst he
      simp
    · simp only [rootPaths, h, Bool.false_eq_true, if_false, List.mem_append,
        List.mem_map] at he
      rcases he with ⟨a, ha, rfl⟩ | ⟨a, ha, rfl⟩
      · intro x hx
        rcases List.mem_cons.mp hx with h1 | h1
        · exact Or.inl h1
        · exact ihl a ha x h1
      · intro x hx
        rcases List.mem_cons.mp hx with h1 | h1
        · exact Or.inr h1
        · exact ihr a ha x h1

/-- A full tree with an internal root and pairwise distinct leaf bytes has two
leaves that hold different bytes. -/
theorem two_leaves_of_internal (t : HuffmanTreeNode) (hfull : isFull t = true)
    (hnl : t.is_leaf = false) (hnd : (leafVals t).Nodup) :
    ∃ a ∈ leafVals t, ∃ b ∈ leafVals t, a ≠ b := by
  cases t with
  | null => simp [isFull] at hfull
  | node v f l r =>
    have hf2 : isFull l = true ∧ isFull r = true := by simpa [isFull, hnl] using hfull
    rw [leafVals_internal hnl] at hnd ⊢
    obtain ⟨a, ha⟩ := List.exists_mem_of_ne_nil _ (leafVals_ne_nil l hf2.1)
    obtain ⟨b, hb⟩ := List.exists_mem_of_ne_nil _ (leafVals_ne_nil r hf2.2)
    exact ⟨a, List.mem_append_left _ ha, b, List.mem_append_right _ hb,
      fun h => (List.nodup_append.mp hnd).2.2 ha (h ▸ hb)⟩

/-- C9. The code table as the code leaves it: for every non-empty input
`buildTree` and `createCharCodes` return; unless the input is made of `'\0'`
bytes only, the table has one entry per distinct byte of the input and no other,
every code is a non-empty string of `'0'` and `'1'`, and a single distinct byte
has the code `"0"`.  For an input of `'\0'` bytes only the table is empty, where
the claim asks for the entry `'\0' -> "0"`. -/
theorem code_table_result (c : Containers) (hc : c.Lawful) (S : List Byte) (hS : S ≠ []) :
    ∃ root codeMap charCode, buildTree c (count_freqs S []) = some root ∧
      createCharCodes root [] = some (codeMap, charCode) ∧
      ((∀ x ∈ S, x = NUL) → codeMap = []) ∧
      (¬ (∀ x ∈ S, x = NUL) →
        (keys codeMap).Nodup ∧ (∀ b, b ∈ keys codeMap ↔ b ∈ S) ∧
        (∀ e ∈ codeMap, e.2 ≠ [] ∧ ∀ x ∈ e.2, x = bit0 ∨ x = bit1) ∧
        (∀ b, (∀ x ∈ S, x = b) → codeMap = [(b, [bit0])])) := by
  have hne : count_freqs S [] ≠ [] := (count_freqs_eq_nil_iff S).not.mpr hS
  obtain ⟨root, hroot, hfull, hval, hperm⟩ := buildTree_shape c hc _ hne
  have hnd : (leafVals root).Nodup :=
    hperm.nodup_iff.mpr (nodup_keys_count_freqs S [] (by simp [keys]))
  have hmem : ∀ x, x ∈ leafVals root ↔ x ∈ S := fun x =>
    (hperm.mem_iff).trans (mem_keys_count_freqs S x)
  cases root with
  | null => simp [isFull] at hfull
  | node v f l r =>
    by_cases hl : (node v f l r).is_leaf = true
    · obtain ⟨rfl, rfl⟩ := (is_leaf_iff v f l r).mp hl
      have hall : ∀ x ∈ S, x = v := by
        intro x hx
        have := (hmem x).mpr hx
        simpa [leafVals, is_leaf] using this
      have hvS : v ∈ S := (hmem v).mp (by simp [leafVals, is_leaf])
      refine ⟨_, _, _, hroot, createCharCodes_leaf v f, ?_, ?_⟩
      · intro h
        rw [if_pos (h v hvS)]
      · intro h
        have hv : ¬ v = NUL := fun h0 => h (fun x hx => (hall x hx).trans h0)
        rw [if_neg hv]
        refine ⟨by simp [keys], ?_, ?_, ?_⟩
        · intro b
          simp only [keys, List.map_cons, List.map_nil, List.mem_singleton]
          exact ⟨fun h1 => h1 ▸ hvS, fun h1 => hall b h1⟩
        · intro e he
          simp only [List.mem_singleton] at he
          subst he
          simp
        · intro b hb
          rw [hb v hvS]
    · have hnl : (node v f l r).is_leaf = false := by simpa using hl
      have hv : v = NUL := by
        rcases hval with h | h
        · exact absurd h hl
        · exact h
      obtain ⟨a, ha, b, hb, hab⟩ := two_leaves_of_internal _ hfull hnl hnd
      refine ⟨_, _, _, hroot, createCharCodes_internal v f l r hv hnd hnl, ?_, ?_⟩
      · intro h
        exact absurd ((h a ((hmem a).mp ha)).trans (h b ((hmem b).mp hb)).symm) hab
      · intro _
        refine ⟨by rw [keys_rootPaths]; exact hnd, ?_, ?_, ?_⟩
        · intro x
          rw [keys_rootPaths]
          exact hmem x
        · intro e he
          exact ⟨rootPaths_ne_nil_of_internal hnl he, rootPaths_bits _ e he⟩
        · intro x hx
          exact absurd ((hx a ((hmem a).mp ha)).trans (hx b ((hmem b).mp hb)).symm) hab

/-- Witness of C9 at the failing input, one `'\0'` byte. -/
theorem code_table_result_witness :
    listContainers.Lawful ∧ [NUL] ≠ [] ∧
    ∃ root codeMap charCode, buildTree listContainers (count_freqs [NUL] []) = some root ∧
      createCharCodes root [] = some (codeMap, charCode) ∧
      ((∀ x ∈ [NUL], x = NUL) → codeMap = []) ∧
      (¬ (∀ x ∈ [NUL], x = NUL) →
        (keys codeMap).Nodup ∧ (∀ b, b ∈ keys codeMap ↔ b ∈ [NUL]) ∧
        (∀ e ∈ codeMap, e.2 ≠ [] ∧ ∀ x ∈ e.2, x = bit0 ∨ x = bit1) ∧
        (∀ b, (∀ x ∈ [NUL], x = b) → codeMap = [(b, [bit0])])) :=
  ⟨listContainers_lawful, by decide,
    code_table_result listContainers listContainers_lawful [NUL] (by decide)⟩

/-! ## Optimality: exchange argument on weight trees -/

theorem perm_cons_cases {x a : Nat} {A B : List Nat} (h : (x :: A).Perm (a :: B)) :
    (x = a ∧ A.Perm B) ∨ ∃ C, A.Perm (a :: C) ∧ B.Perm (x :: C) := by
  have ha : a ∈ x :: A := h.symm.subset (List.mem_cons_self _ _)
  rcases List.mem_cons.mp ha with h1 | h1
  · subst h1
    exact Or.inl ⟨rfl, List.Perm.cons_inv h⟩
  · right
    refine ⟨A.erase a, List.perm_cons_erase h1, ?_⟩
    have h2 : (x :: A).Perm (a :: x :: A.erase a) :=
      ((List.perm_cons_erase h1).cons x).trans (List.Perm.swap a x _)
    exact (List.Perm.cons_inv (h2.symm.trans h)).symm

/-- Raising the weight of one leaf by `d` raises the cost by at most `d` times
the height; the shape, and so the height, is kept. -/
theorem WTree.raise_leaf (T : WTree) :
    ∀ (a d : Nat) (R : List Nat), T.leaves.Perm (a :: R) →
      ∃ T2 : WTree, T2.leaves.Perm ((a + d) :: R) ∧ T2.height = T.height ∧
        T2.cost ≤ T.cost + d * T.height := by
  induction T with
  | leaf w =>
    intro a d R h
    have hl := h.length_eq
    cases R with
    | nil => exact ⟨WTree.leaf (a + d), List.Perm.refl _, rfl, by simp [WTree.cost]⟩
    | cons _ _ => simp [WTree.leaves] at hl
  | node l r ihl ihr =>
    intro a d R h
    simp only [WTree.leaves] at h
    have ha : a ∈ l.leaves ++ r.leaves := h.symm.subset (List.mem_cons_self _ _)
    rcases List.mem_append.mp ha with h1 | h1
    · have hp := List.perm_cons_erase h1
      obtain ⟨l2, hl2, hh2, hc2⟩ := ihl a d _ hp
      refine ⟨WTree.node l2 r, ?_, ?_, ?_⟩
      · simp only [WTree.leaves]
        have h3 : (a :: (l.leaves.erase a ++ r.leaves)).Perm (a :: R) :=
          (hp.append_right r.leaves).symm.trans h
        exact (hl2.append_right r.leaves).trans ((List.Perm.cons_inv h3).cons (a + d))
      · simp [WTree.height, hh2]
      · have hs1 := hp.sum_eq
        have hs2 := hl2.sum_eq
        simp only [List.sum_cons] at hs1 hs2
        simp only [WTree.cost, WTree.height]
        have hm : d * l.height + d ≤ d * (max l.height r.height + 1) := by
          rw [Nat.mul_add, Nat.mul_one]
          exact Nat.add_le_add_right (Nat.mul_le_mul_left d (Nat.le_max_left _ _)) d
        omega
    · have hp := List.perm_cons_erase h1
      obtain ⟨r2, hr2, hh2, hc2⟩ := ihr a d _ hp
      refine ⟨WTree.node l r2, ?_, ?_, ?_⟩
      · simp only [WTree.leaves]
        have h3 : (a :: (l.leaves ++ r.leaves.erase a)).Perm (a :: R) :=
          (List.perm_middle.symm.trans (hp.append_left l.leaves).symm).trans h
        refine (hr2.append_left l.leaves).trans ?_
        exact List.perm_middle.trans ((List.Perm.cons_inv h3).cons (a + d))
      · simp [WTree.height, hh2]
      · have hs1 := hp.sum_eq
        have hs2 := hr2.sum_eq
        simp only [List.sum_cons] at hs1 hs2
        simp only [WTree.cost, WTree.height]
        have hm : d * r.height + d ≤ d * (max l.height r.height + 1) := by
          rw [Nat.mul_add, Nat.mul_one]
          exact Nat.add_le_add_right (Nat.mul_le_mul_left d (Nat.le_max_right _ _)) d
        omega

/-- Raising several leaves, each to a weight that is not smaller. -/
theorem WTree.raise_leaves (Qs Ps : List Nat) (hQP : List.Forall₂ (fun q p => q ≤ p) Qs Ps) :
    ∀ (T : WTree) (R : List Nat), T.leaves.Perm (Qs ++ R) →
      ∃ T2 : WTree, T2.leaves.Perm (Ps ++ R) ∧ T2.height = T.height ∧
        T2.cost + Qs.sum * T.height ≤ T.cost + Ps.sum * T.height := by
  induction hQP with
  | nil => intro T R h; exact ⟨T, h, rfl, by simp⟩
  | @cons q p Qs Ps hqp _ ih =>
    intro T R h
    obtain ⟨d, rfl⟩ : ∃ d, p = q + d := ⟨p - q, by omega⟩
    obtain ⟨T1, h1, hh1, hc1⟩ := WTree.raise_leaf T q d (Qs ++ R) (by simpa using h)
    have h1b : T1.leaves.Perm (Qs ++ ((q + d) :: R)) :=
      h1.trans List.perm_middle.symm
    obtain ⟨T2, h2, hh2, hc2⟩ := ih T1 ((q + d) :: R) h1b
    refine ⟨T2, ?_, hh2.trans hh1, ?_⟩
    · exact h2.trans (by simp)
    · rw [hh1] at hc2
      simp only [List.sum_cons, Nat.add_mul]
      omega

/-- A tree with more than one leaf has two sibling leaves `x`, `y` on its
lowest level; merging them into one leaf of weight `c` lowers the depth of that
weight by one. -/
theorem WTree.merge_deepest (T : WTree) :
    ∀ k, T.height = k + 1 →
      ∃ (x y : Nat) (R0 : List Nat), T.leaves.Perm (x :: y :: R0) ∧
        ∀ c : Nat, ∃ T2 : WTree, T2.leaves.Perm (c :: R0) ∧ T2.height ≤ k + 1 ∧
          T2.cost + (x + y) * (k + 1) = T.cost + c * k := by
  induction T with
  | leaf w => intro k h; simp [WTree.height] at h
  | node l r ihl ihr =>
    intro k hk
    simp only [WTree.height, Nat.add_right_cancel_iff] at hk
    by_cases hlr : r.height ≤ l.height
    · have hlk : l.height = k := by rw [← hk]; exact (Nat.max_eq_left hlr).symm
      cases k with
      | zero =>
        have hrk : r.height = 0 := by omega
        cases l with
        | node _ _ => simp [WTree.height] at hlk
        | leaf x =>
          cases r with
          | node _ _ => simp [WTree.height] at hrk
          | leaf y =>
            refine ⟨x, y, [], by simp [WTree.leaves], ?_⟩
            intro c
            exact ⟨WTree.leaf c, by simp [WTree.leaves], by simp [WTree.height],
              by simp [WTree.cost, WTree.leaves]⟩
      | succ k =>
        obtain ⟨x, y, R0, hp, hc⟩ := ihl k hlk
        refine ⟨x, y, R0 ++ r.leaves, ?_, ?_⟩
        · simp only [WTree.leaves]
          exact hp.append_right r.leaves
        · intro c
          obtain ⟨l2, hl2, hh2, hc2⟩ := hc c
          refine ⟨WTree.node l2 r, ?_, ?_, ?_⟩
          · simp only [WTree.leaves]
            exact hl2.append_right r.leaves
          · simp only [WTree.height]
            have : max l2.height r.height ≤ k + 1 := Nat.max_le.mpr ⟨hh2, by omega⟩
            omega
          · have hs1 := hp.sum_eq
            have hs2 := hl2.sum_eq
            simp only [List.sum_cons] at hs1 hs2
            simp only [WTree.cost]
            have e1 : (x + y) * (k + 1 + 1) = (x + y) * (k + 1) + (x + y) := by
              rw [Nat.mul_add, Nat.mul_one]
            have e2 : c * (k + 1) = c * k + c := by rw [Nat.mul_add, Nat.mul_one]
            omega
    · have hlr2 : l.height ≤ r.height := by omega
      have hrk : r.height = k := by rw [← hk]; exact (Nat.max_eq_right hlr2).symm
      cases k with
      | zero => omega
      | succ k =>
        obtain ⟨x, y, R0, hp, hc⟩ := ihr k hrk
        refine ⟨x, y, l.leaves ++ R0, ?_, ?_⟩
        · simp only [WTree.leaves]
          refine (hp.append_left l.leaves).trans ?_
          refine List.perm_middle.trans (List.Perm.cons x ?_)
          exact List.perm_middle
        · intro c
          obtain ⟨r2, hr2, hh2, hc2⟩ := hc c
          refine ⟨WTree.node l r2, ?_, ?_, ?_⟩
          · simp only [WTree.leaves]
            exact (hr2.append_left l.leaves).trans List.perm_middle
          · simp only [WTree.height]
            have : max l.height r2.height ≤ k + 1 := Nat.max_le.mpr ⟨by omega, hh2⟩
            omega
          · have hs1 := hp.sum_eq
            have hs2 := hr2.sum_eq
            simp only [List.sum_cons] at hs1 hs2
            simp only [WTree.cost]
            have e1 : (x + y) * (k + 1 + 1) = (x + y) * (k + 1) + (x + y) := by
              rw [Nat.mul_add, Nat.mul_one]
            have e2 : c * (k + 1) = c * k + c := by rw [Nat.mul_add, Nat.mul_one]
            omega

theorem forall₂_sum_le (Qs Ps : List Nat) (h : List.Forall₂ (fun q p => q ≤ p) Qs Ps) :
    Qs.sum ≤ Ps.sum := by
  induction h with
  | nil => simp
  | cons hqp _ ih => simp only [List.sum_cons]; omega

/-- When `a` and `b` are least among `a :: b :: R`, a pair `x`, `y` taken out of
the same weights leaves weights that differ from `R` only in that some of `a`,
`b` stand where `R` has some of `x`, `y`. -/
theorem cancel_pair {x y a b : Nat} {R0 R : List Nat}
    (h : (x :: y :: R0).Perm (a :: b :: R)) (hmin : ∀ c ∈ R, a ≤ c ∧ b ≤ c) :
    ∃ Qs Ps R1, R0.Perm (Qs ++ R1) ∧ R.Perm (Ps ++ R1) ∧
      List.Forall₂ (fun q p => q ≤ p) Qs Ps ∧ x + y + Qs.sum = a + b + Ps.sum := by
  rcases perm_cons_cases h with ⟨rfl, h1⟩ | ⟨C, h1, h2⟩
  · rcases perm_cons_cases h1 with ⟨rfl, h3⟩ | ⟨D, h3, h4⟩
    · exact ⟨[], [], R0, by simp, by simpa using h3.symm, List.Forall₂.nil, by simp⟩
    · have hy : y ∈ R := h4.symm.subset (List.mem_cons_self _ _)
      exact ⟨[b], [y], D, by simpa using h3, by simpa using h4,
        List.Forall₂.cons (hmin y hy).2 List.Forall₂.nil, by simp; omega⟩
  · rcases perm_cons_cases h2.symm with ⟨rfl, h5⟩ | ⟨E, h5, h6⟩
    · rcases perm_cons_cases h1 with ⟨rfl, h3⟩ | ⟨D, h3, h4⟩
      · exact ⟨[], [], R0, by simp, by simpa using (h3.trans h5).symm, List.Forall₂.nil,
          by simp; omega⟩
      · have h7 : R.Perm (y :: D) := h5.symm.trans h4
        have hy : y ∈ R := h7.symm.subset (List.mem_cons_self _ _)
        exact ⟨[a], [y], D, by simpa using h3, by simpa using h7,
          List.Forall₂.cons (hmin y hy).1 List.Forall₂.nil, by simp; omega⟩
    · have hx : x ∈ R := h6.symm.subset (List.mem_cons_self _ _)
      rcases perm_cons_cases h1 with ⟨rfl, h3⟩ | ⟨D, h3, h4⟩
      · exact ⟨[b], [x], E, by simpa using h3.trans h5, by simpa using h6,
          List.Forall₂.cons (hmin x hx).2 List.Forall₂.nil, by simp; omega⟩
      · have h8 : (y :: D).Perm (b :: E) := h4.symm.trans h5
        rcases perm_cons_cases h8 with ⟨rfl, h9⟩ | ⟨F, h9, h10⟩
        · exact ⟨[a], [x], D, by simpa using h3, by simpa using h6.trans (h9.symm.cons x),
            List.Forall₂.cons (hmin x hx).1 List.Forall₂.nil, by simp; omega⟩
        · have hR : R.Perm (x :: y :: F) := h6.trans (h10.cons x)
          have hy : y ∈ R := hR.symm.subset (by simp)
          exact ⟨[a, b], [x, y], F, by simpa using h3.trans (h9.cons a), by simpa using hR,
            List.Forall₂.cons (hmin x hx).1 (List.Forall₂.cons (hmin y hy).2 List.Forall₂.nil),
            by simp; omega⟩

/-- The exchange step of Huffman's algorithm: in any tree, two least weights can
be made siblings on the lowest level and merged; the cost drops by at least
their sum. -/
theorem WTree.merge_two_least (T : WTree) (a b : Nat) (R : List Nat)
    (h : T.leaves.Perm (a :: b :: R)) (hmin : ∀ c ∈ R, a ≤ c ∧ b ≤ c) :
    ∃ T2 : WTree, T2.leaves.Perm ((a + b) :: R) ∧ T2.cost + a + b ≤ T.cost := by
  obtain ⟨k, hk⟩ : ∃ k, T.height = k + 1 := by
    cases T with
    | leaf w =>
      have := h.length_eq
      simp [WTree.leaves] at this
    | node l r => exact ⟨_, rfl⟩
  obtain ⟨x, y, R0, hp, hc⟩ := WTree.merge_deepest T k hk
  obtain ⟨Qs, Ps, R1, hR0, hR, hQP, hsum⟩ := cancel_pair (hp.symm.trans h) hmin
  obtain ⟨T1, hl1, hh1, hc1⟩ := hc (a + b)
  have hl1b : T1.leaves.Perm (Qs ++ ((a + b) :: R1)) :=
    (hl1.trans (hR0.cons (a + b))).trans List.perm_middle.symm
  obtain ⟨T2, hl2, hh2, hc2⟩ := WTree.raise_leaves Qs Ps hQP T1 _ hl1b
  refine ⟨T2, ?_, ?_⟩
  · exact (hl2.trans List.perm_middle).trans (hR.symm.cons (a + b))
  · obtain ⟨D, hD⟩ : ∃ D, Ps.sum = Qs.sum + D :=
      ⟨Ps.sum - Qs.sum, by have := forall₂_sum_le Qs Ps hQP; omega⟩
    have e1 : Ps.sum * T1.height = Qs.sum * T1.height + D * T1.height := by
      rw [hD, Nat.add_mul]
    have e2 : D * T1.height ≤ D * (k + 1) := Nat.mul_le_mul_left D hh1
    have hxy : x + y = a + b + D := by omega
    have e3 : (x + y) * (k + 1) = (a + b) * k + (a + b) + D * (k + 1) := by
      rw [hxy]; ring
    omega

/-! ## Optimality of `buildTree` -/

theorem freqOf_of_mem (m : FreqMap) (hnd : (keys m).Nodup) (e : Byte × Nat) (he : e ∈ m) :
    freqOf m e.1 = e.2 := by
  simp [freqOf, lookup_of_mem_nodup m hnd e.1 e.2 he]

theorem map_freqOf_keys (m : FreqMap) (hnd : (keys m).Nodup) :
    (keys m).map (freqOf m) = m.map Prod.snd := by
  simp only [keys, List.map_map]
  apply List.map_congr_left
  intro e he
  exact freqOf_of_mem m hnd e he

theorem optInv_perm (m : FreqMap) (q q2 : List HuffmanTreeNode) (hp : q.Perm q2)
    (h : OptInv m q) : OptInv m q2 := by
  refine ⟨fun t ht => h.1 t (hp.symm.subset ht), ?_⟩
  intro T0 hT0
  obtain ⟨T, hT, hc⟩ := h.2 T0 hT0
  refine ⟨T, hT.trans (hp.map _), ?_⟩
  rw [← (hp.map mergeCost).sum_eq]
  exact hc

theorem optInv_merge (m : FreqMap) (t1 t2 : HuffmanTreeNode) (q : List HuffmanTreeNode)
    (hmin : (∀ y ∈ t2 :: q, t1.get_freq ≤ y.get_freq) ∧ (∀ y ∈ q, t2.get_freq ≤ y.get_freq))
    (h : OptInv m (t1 :: t2 :: q)) :
    OptInv m (node NUL (t1.get_freq + t2.get_freq) t1 t2 :: q) := by
  have h1 := h.1 t1 (List.mem_cons_self _ _)
  have h2 := h.1 t2 (List.mem_cons_of_mem _ (List.mem_cons_self _ _))
  have hnl : (node NUL (t1.get_freq + t2.get_freq) t1 t2).is_leaf = false :=
    not_is_leaf_of_left (isFull_ne_null h1.1)
  refine ⟨?_, ?_⟩
  · intro t ht
    rcases List.mem_cons.mp ht with ht | ht
    · subst ht
      exact ⟨by simp [isFull, h1.1, h2.1], by simp [freqConsistent, hnl, h1.2, h2.2]⟩
    · exact h.1 t (List.mem_cons_of_mem _ (List.mem_cons_of_mem _ ht))
  · intro T0 hT0
    obtain ⟨T, hT, hc⟩ := h.2 T0 hT0
    simp only [List.map_cons] at hT hc
    obtain ⟨T2, hT2, hc2⟩ := WTree.merge_two_least T t1.get_freq t2.get_freq
      (q.map get_freq) hT (by
        intro x hx
        obtain ⟨y, hy, rfl⟩ := List.mem_map.mp hx
        exact ⟨hmin.1 y (List.mem_cons_of_mem _ hy), hmin.2 y hy⟩)
    refine ⟨T2, by simpa using hT2, ?_⟩
    simp only [List.map_cons, List.sum_cons, mergeCost, hnl, Bool.false_eq_true, if_false] at hc ⊢
    omega

theorem optInv_init (c : Containers) (hc : c.Lawful) (m : FreqMap) (hnd : (keys m).Nodup) :
    OptInv m (pushLeaves c (c.iterate m)) := by
  apply optInv_perm m _ _ (pushLeaves_perm c hc (c.iterate m)).symm
  refine ⟨?_, ?_⟩
  · intro t ht
    obtain ⟨e, he, rfl⟩ := List.mem_map.mp ht
    have hem : e ∈ m := (hc.iterate_perm m).subset he
    exact ⟨rfl, by simp [freqConsistent, is_leaf, freqOf_of_mem m hnd e hem]⟩
  · intro T0 hT0
    refine ⟨T0, ?_, ?_⟩
    · refine hT0.trans ?_
      simp only [List.map_map]
      exact ((hc.iterate_perm m).map _).symm
    · have h0 : ((c.iterate m).map (fun e => node e.1 e.2 null null)).map mergeCost
          = (c.iterate m).map (fun _ => 0) := by
        simp [mergeCost, is_leaf, Function.comp_def]
      rw [h0]
      simp

/-- On a full tree with consistent frequencies the weighted path length is the
cost spent inside the tree plus the frequency of the root for every level above
it. -/
theorem weightedPathLength_eq_mergeCost (weight : Byte → Nat) (t : HuffmanTreeNode) :
    ∀ d, isFull t = true → freqConsistent weight t = true →
      weightedPathLength weight d t = mergeCost t + d * t.get_freq := by
  induction t with
  | null => intro d hf; simp [isFull] at hf
  | node v f l r ihl ihr =>
    intro d hf hcons
    by_cases h : (node v f l r).is_leaf = true
    · simp only [freqConsistent, h, if_true, beq_iff_eq] at hcons
      subst hcons
      have hg : (node v (weight v) l r).get_freq = weight v := rfl
      simp only [weightedPathLength, mergeCost, h, if_true, hg, Nat.zero_add]
      exact Nat.mul_comm _ _
    · have hf2 : isFull l = true ∧ isFull r = true := by simpa [isFull, h] using hf
      simp only [freqConsistent, h, Bool.false_eq_true, if_false, Bool.and_eq_true,
        beq_iff_eq] at hcons
      obtain ⟨⟨hfreq, hl⟩, hr⟩ := hcons
      subst hfreq
      have hg : (node v (l.get_freq + r.get_freq) l r).get_freq
          = l.get_freq + r.get_freq := rfl
      simp only [weightedPathLength, mergeCost, h, Bool.false_eq_true, if_false,
        ihl (d + 1) hf2.1 hl, ihr (d + 1) hf2.2 hr, hg]
      ring

/-- Every tree with a leaf has a weight tree with the same leaf weights whose
cost is not larger: nodes with one child are skipped. -/
theorem exists_wtree (weight : Byte → Nat) (t : HuffmanTreeNode) :
    t ≠ null → ∃ T : WTree, T.leaves = (leafVals t).map weight ∧
      ∀ d, T.cost + d * T.leaves.sum ≤ weightedPathLength weight d t := by
  induction t with
  | null => intro h; exact absurd rfl h
  | node v f l r ihl ihr =>
    intro _
    by_cases h : (node v f l r).is_leaf = true
    · refine ⟨WTree.leaf (weight v), by simp [WTree.leaves, leafVals, h], ?_⟩
      intro d
      simp [WTree.cost, WTree.leaves, weightedPathLength, h, Nat.mul_comm]
    · have hnl : (node v f l r).is_leaf = false := by simpa using h
      by_cases hl : l = null
      · have hr : r ≠ null := by
          intro hr
          rw [hl, hr] at hnl
          simp [is_leaf] at hnl
        obtain ⟨Tr, hTr, hcr⟩ := ihr hr
        subst hl
        refine ⟨Tr, by simp [leafVals, hnl, hTr], ?_⟩
        intro d
        have h1 := hcr (d + 1)
        rw [Nat.add_mul, Nat.one_mul] at h1
        simp only [weightedPathLength, hnl, Bool.false_eq_true, if_false]
        omega
      · by_cases hr : r = null
        · obtain ⟨Tl, hTl, hcl⟩ := ihl hl
          subst hr
          refine ⟨Tl, by simp [leafVals, hnl, hTl], ?_⟩
          intro d
          have h1 := hcl (d + 1)
          rw [Nat.add_mul, Nat.one_mul] at h1
          simp only [weightedPathLength, hnl, Bool.false_eq_true, if_false]
          omega
        · obtain ⟨Tl, hTl, hcl⟩ := ihl hl
          obtain ⟨Tr, hTr, hcr⟩ := ihr hr
          refine ⟨WTree.node Tl Tr, by simp [WTree.leaves, leafVals, hnl, hTl, hTr], ?_⟩
          intro d
          have h1 := hcl (d + 1)
          have h2 := hcr (d + 1)
          rw [Nat.add_mul, Nat.one_mul] at h1 h2
          simp only [weightedPathLength, hnl, Bool.false_eq_true, if_false, WTree.cost,
            WTree.leaves, List.sum_append, Nat.mul_add]
          omega

/-- C4. Optimality: with a queue that yields a node of least frequency, under
any tie-break and any iteration order, `buildTree` returns for every non-empty
frequency table a tree whose leaves hold the keys of the table and whose
weighted path length is at most that of every binary tree whose leaves hold
exactly those keys. -/
theorem buildTree_optimal (c : Containers) (hc : c.Lawful) (hmin : c.MinFirst)
    (m : FreqMap) (hm : m ≠ []) (hnd : (keys m).Nodup) :
    ∃ root, buildTree c m = some root ∧ (leafVals root).Perm (keys m) ∧
      ∀ t : HuffmanTreeNode, (leafVals t).Perm (keys m) →
        weightedPathLength (freqOf m) 0 root ≤ weightedPathLength (freqOf m) 0 t := by
  obtain ⟨root, hroot, _, _, hperm⟩ := buildTree_shape c hc m hm
  obtain ⟨root2, hroot2, hP⟩ := buildLoop_invariant c hc (OptInv m) (optInv_perm m)
    (fun t1 t2 q hmf h => optInv_merge m t1 t2 q (hmf hmin) h)
    ((pushLeaves c (c.iterate m)).length + 1) (pushLeaves c (c.iterate m)) null
    (pushLeaves_ne_nil c hc m hm) (Nat.lt_succ_self _) (optInv_init c hc m hnd)
  have heq : root2 = root := by
    have h1 : buildTree c m = some root2 := hroot2
    rw [hroot] at h1
    exact (Option.some.inj h1).symm
  subst heq
  refine ⟨root2, hroot, hperm, ?_⟩
  intro t ht
  have htn : t ≠ null := by
    intro h0
    subst h0
    have := ht.length_eq
    simp only [leafVals, List.length_nil, keys, List.length_map] at this
    exact hm (List.length_eq_zero.mp this.symm)
  obtain ⟨T0, hT0, hcost0⟩ := exists_wtree (freqOf m) t htn
  have hT0p : T0.leaves.Perm (m.map Prod.snd) := by
    rw [hT0, ← map_freqOf_keys m hnd]
    exact ht.map _
  obtain ⟨T, hT, hc1⟩ := hP.2 T0 hT0p
  have hfc := hP.1 root2 (List.mem_singleton_self _)
  rw [weightedPathLength_eq_mergeCost (freqOf m) root2 0 hfc.1 hfc.2]
  have h2 := hcost0 0
  simp only [List.map_cons, List.map_nil, List.sum_cons, List.sum_nil] at hc1
  omega

/-- Witness of C4 on the table of the input `"aaab"` with the list containers. -/
theorem buildTree_optimal_witness :
    listContainers.Lawful ∧ listContainers.MinFirst ∧ count_freqs [97, 97, 97, 98] [] ≠ [] ∧
    (keys (count_freqs [97, 97, 97, 98] [])).Nodup ∧
    ∃ root, buildTree listContainers (count_freqs [97, 97, 97, 98] []) = some root ∧
      (leafVals root).Perm (keys (count_freqs [97, 97, 97, 98] [])) ∧
      ∀ t : HuffmanTreeNode, (leafVals t).Perm (keys (count_freqs [97, 97, 97, 98] [])) →
        weightedPathLength (freqOf (count_freqs [97, 97, 97, 98] [])) 0 root ≤
          weightedPathLength (freqOf (count_freqs [97, 97, 97, 98] [])) 0 t :=
  ⟨listContainers_lawful, listContainers_minFirst, by decide, by decide,
    buildTree_optimal listContainers listContainers_lawful listContainers_minFirst
      (count_freqs [97, 97, 97, 98] []) (by decide) (by decide)⟩

/-! ## Shape and frequencies of the built tree -/

theorem numLeaves_eq_length (t : HuffmanTreeNode) : numLeaves t = (leafVals t).length := by
  induction t with
  | null => rfl
  | node v f l r ihl ihr =>
    by_cases h : (node v f l r).is_leaf = true
    · simp [numLeaves, leafVals, h]
    · simp [numLeaves, leafVals, h, ihl, ihr]

theorem numInternal_succ (t : HuffmanTreeNode) (hf : isFull t = true) :
    numInternal t + 1 = numLeaves t := by
  induction t with
  | null => simp [isFull] at hf
  | node v f l r ihl ihr =>
    by_cases h : (node v f l r).is_leaf = true
    · simp [numLeaves, numInternal, h]
    · have hf2 : isFull l = true ∧ isFull r = true := by simpa [isFull, h] using hf
      have h1 := ihl hf2.1
      have h2 := ihr hf2.2
      simp only [numLeaves, numInternal, h, Bool.false_eq_true, if_false]
      omega

/-- C11. Tree shape invariant: for a non-empty frequency table `buildTree`
returns a tree in which every node that is not a leaf has two children, whose
leaves hold exactly the keys of the table, each at one leaf; a table with `n`
keys gives `n` leaves and `n - 1` internal nodes. -/
theorem buildTree_tree_shape (c : Containers) (hc : c.Lawful) (m : FreqMap) (hm : m ≠ [])
    (hnd : (keys m).Nodup) :
    ∃ root, buildTree c m = some root ∧ isFull root = true ∧
      (leafVals root).Perm (keys m) ∧ (leafVals root).Nodup ∧
      numLeaves root = m.length ∧ numInternal root + 1 = m.length := by
  obtain ⟨root, hroot, hfull, _, hperm⟩ := buildTree_shape c hc m hm
  have hlen : numLeaves root = m.length := by
    rw [numLeaves_eq_length, hperm.length_eq]
    simp [keys]
  exact ⟨root, hroot, hfull, hperm, hperm.nodup_iff.mpr hnd, hlen,
    (numInternal_succ root hfull).trans hlen⟩

/-- Witness of C11 on the table of the input `"abca"` with the list containers. -/
theorem buildTree_tree_shape_witness :
    listContainers.Lawful ∧ count_freqs [97, 98, 99, 97] [] ≠ [] ∧
    (keys (count_freqs [97, 98, 99, 97] [])).Nodup ∧
    ∃ root, buildTree listContainers (count_freqs [97, 98, 99, 97] []) = some root ∧
      isFull root = true ∧
      (leafVals root).Perm (keys (count_freqs [97, 98, 99, 97] [])) ∧ (leafVals root).Nodup ∧
      numLeaves root = (count_freqs [97, 98, 99, 97] []).length ∧
      numInternal root + 1 = (count_freqs [97, 98, 99, 97] []).length :=
  ⟨listContainers_lawful, by decide, by decide,
    buildTree_tree_shape listContainers listContainers_lawful (count_freqs [97, 98, 99, 97] [])
      (by decide) (by decide)⟩

theorem freqInv_perm (m : FreqMap) (q q2 : List HuffmanTreeNode) (hp : q.Perm q2)
    (h : FreqInv m q) : FreqInv m q2 :=
  fun t ht => h t (hp.symm.subset ht)

theorem freqInv_merge (m : FreqMap) (t1 t2 : HuffmanTreeNode) (q : List HuffmanTreeNode)
    (h : FreqInv m (t1 :: t2 :: q)) :
    FreqInv m (node NUL (t1.get_freq + t2.get_freq) t1 t2 :: q) := by
  have h1 := h t1 (List.mem_cons_self _ _)
  have h2 := h t2 (List.mem_cons_of_mem _ (List.mem_cons_self _ _))
  have hnl : (node NUL (t1.get_freq + t2.get_freq) t1 t2).is_leaf = false :=
    not_is_leaf_of_left (isFull_ne_null h1.1)
  intro t ht
  rcases List.mem_cons.mp ht with ht | ht
  · subst ht
    exact ⟨by simp [isFull, h1.1, h2.1], by simp [freqConsistent, hnl, h1.2, h2.2]⟩
  · exact h t (List.mem_cons_of_mem _ (List.mem_cons_of_mem _ ht))

theorem freqInv_init (c : Containers) (hc : c.Lawful) (m : FreqMap) (hnd : (keys m).Nodup) :
    FreqInv m (pushLeaves c (c.iterate m)) := by
  apply freqInv_perm m _ _ (pushLeaves_perm c hc (c.iterate m)).symm
  intro t ht
  obtain ⟨e, he, rfl⟩ := List.mem_map.mp ht
  have hem : e ∈ m := (hc.iterate_perm m).subset he
  exact ⟨rfl, by simp [freqConsistent, is_leaf, freqOf_of_mem m hnd e hem]⟩

/-- In a full tree with consistent frequencies the frequency of the root is the
sum of the weights of the leaves. -/
theorem get_freq_eq_sum (weight : Byte → Nat) (t : HuffmanTreeNode) (hf : isFull t = true)
    (hcons : freqConsistent weight t = true) :
    t.get_freq = ((leafVals t).map weight).sum := by
  induction t with
  | null => simp [isFull] at hf
  | node v f l r ihl ihr =>
    by_cases h : (node v f l r).is_leaf = true
    · simp only [freqConsistent, h, if_true, beq_iff_eq] at hcons
      subst hcons
      simp [leafVals, h, get_freq]
    · have hf2 : isFull l = true ∧ isFull r = true := by simpa [isFull, h] using hf
      simp only [freqConsistent, h, Bool.false_eq_true, if_false, Bool.and_eq_true,
        beq_iff_eq] at hcons
      obtain ⟨⟨hfreq, hl⟩, hr⟩ := hcons
      have hg : (node v f l r).get_freq = f := rfl
      have hnl : (node v f l r).is_leaf = false := by simpa using h
      rw [leafVals_internal hnl, hg, hfreq, ihl hf2.1 hl, ihr hf2.2 hr]
      simp

/-- C16. Frequency bookkeeping: for a non-empty frequency table `buildTree`
returns a tree in which every leaf carries the count of its byte and every
other node the sum of the frequencies of its two children; the frequency of
the root is the sum of all counts, which for the table of an input is the
length of the input. -/
theorem buildTree_frequencies (c : Containers) (hc : c.Lawful) (m : FreqMap) (hm : m ≠ [])
    (hnd : (keys m).Nodup) :
    ∃ root, buildTree c m = some root ∧ isFull root = true ∧
      freqConsistent (freqOf m) root = true ∧
      root.get_freq = (m.map Prod.snd).sum ∧
      ∀ S : List Byte, m = count_freqs S [] → root.get_freq = S.length := by
  obtain ⟨root, hroot, _, _, hperm⟩ := buildTree_shape c hc m hm
  obtain ⟨root2, hroot2, hP⟩ := buildLoop_invariant c hc (FreqInv m) (freqInv_perm m)
    (fun t1 t2 q _ h => freqInv_merge m t1 t2 q h)
    ((pushLeaves c (c.iterate m)).length + 1) (pushLeaves c (c.iterate m)) null
    (pushLeaves_ne_nil c hc m hm) (Nat.lt_succ_self _) (freqInv_init c hc m hnd)
  have heq : root2 = root := by
    have h1 : buildTree c m = some root2 := hroot2
    rw [hroot] at h1
    exact (Option.some.inj h1).symm
  subst heq
  have hfc := hP root2 (List.mem_singleton_self _)
  have hsum : root2.get_freq = (m.map Prod.snd).sum := by
    rw [get_freq_eq_sum (freqOf m) root2 hfc.1 hfc.2, ← map_freqOf_keys m hnd]
    exact (hperm.map _).sum_eq
  refine ⟨root2, hroot, hfc.1, hfc.2, hsum, ?_⟩
  intro S hS
  rw [hsum, hS]
  simpa using sum_count_freqs S []

/-- Witness of C16 on the table of the input `"abca"` with the list containers. -/
theorem buildTree_frequencies_witness :
    listContainers.Lawful ∧ count_freqs [97, 98, 99, 97] [] ≠ [] ∧
    (keys (count_freqs [97, 98, 99, 97] [])).Nodup ∧
    ∃ root, buildTree listContainers (count_freqs [97, 98, 99, 97] []) = some root ∧
      isFull root = true ∧
      freqConsistent (freqOf (count_freqs [97, 98, 99, 97] [])) root = true ∧
      root.get_freq = ((count_freqs [97, 98, 99, 97] []).map Prod.snd).sum ∧
      ∀ S : List Byte, count_freqs [97, 98, 99, 97] [] = count_freqs S [] →
        root.get_freq = S.length :=
  ⟨listContainers_lawful, by decide, by decide,
    buildTree_frequencies listContainers listContainers_lawful
      (count_freqs [97, 98, 99, 97] []) (by decide) (by decide)⟩

/-! ## Totality of `deserialize_helper` -/

/-- With fuel beyond the number of characters left, `deserialize_helper` returns
a result and never moves the cursor backwards. -/
theorem deserialize_helper_total (s : List Byte) :
    ∀ (fuel index : Nat), 0 < fuel → s.length < fuel + index →
      ∃ r, deserialize_helper s fuel index = some r ∧ index ≤ r.2 := by
  intro fuel
  induction fuel with
  | zero =>
    intro index h0
    exact absurd h0 (by omega)
  | succ fuel ih =>
    intro index _ h
    by_cases h1 : index ≥ s.length
    · exact ⟨(null, index), by simp [deserialize_helper, h1], Nat.le_refl _⟩
    · by_cases hI : s.getD index NUL = tokI
      · obtain ⟨⟨lt, i1⟩, hl, hi1⟩ := ih (index + 1) (by omega) (by omega)
        obtain ⟨⟨rt, i2⟩, hr, hi2⟩ := ih (i1 + 1) (by omega) (by simp only at hi1; omega)
        refine ⟨(node NUL 0 lt rt, i2), ?_, ?_⟩
        · simp only [deserialize_helper, h1, if_false, hI, if_true, hl, hr]
        · simp only at hi1 hi2 ⊢
          omega
      · by_cases hL : s.getD index NUL = tokL
        · have hLI : ¬ (tokL : Byte) = tokI := by decide
          exact ⟨(node (s.getD (index + 1) NUL) 0 null null, index + 1),
            by simp only [deserialize_helper, h1, if_false, hL, hLI, if_true],
            Nat.le_succ _⟩
        · exact ⟨(null, index), by simp only [deserialize_helper, h1, if_false, hI, hL],
            Nat.le_refl _⟩

/-! ## Claims on `binaryToASCII` -/

/-- C19. Empty bit-string with a branching tree: when the root is an internal
node, `binaryToASCII` on the empty bit-string raises the mismatch error. -/
theorem empty_bits_rejected (root : HuffmanTreeNode) (hnn : root ≠ null)
    (hnl : root.is_leaf = false) :
    binaryToASCII root [] = some (Except.error ("Encoding did not match Huffman tree.")) := by
  cases root with
  | null => exact absurd rfl hnn
  | node v f l r =>
    simp [binaryToASCII, binaryToASCII_loop, hnl, mismatchError]

/-- Witness of C19 on the tree of `"ILaLb"`. -/
theorem empty_bits_rejected_witness :
    node NUL 0 (node 97 0 null null) (node 98 0 null null) ≠ null ∧
    (node NUL 0 (node 97 0 null null) (node 98 0 null null)).is_leaf = false ∧
    binaryToASCII (node NUL 0 (node 97 0 null null) (node 98 0 null null)) [] =
      some (Except.error ("Encoding did not match Huffman tree.")) :=
  ⟨by decide, by decide, empty_bits_rejected _ (by decide) (by decide)⟩

/-! ## Deserialization stops at the end of the first tree -/

theorem sameShape_deserialized (t : HuffmanTreeNode) : sameShape t (deserialized t) = true := by
  induction t with
  | null => rfl
  | node v f l r ihl ihr =>
    by_cases h : (node v f l r).is_leaf = true
    · obtain ⟨rfl, rfl⟩ := (is_leaf_iff v f l r).mp h
      simp [deserialized, sameShape, is_leaf]
    · simp [deserialized, sameShape, h, ihl, ihr]

/-- The result of `deserialize_helper` on the serialization of a full tree,
placed anywhere in a string: the tree `deserialized t`, with the cursor on the
last character of the serialization. -/
theorem deserialize_helper_serialize_eq (t : HuffmanTreeNode) :
    ∀ (pre rest : List Byte) (fuel : Nat), isFull t = true → height t ≤ fuel →
      deserialize_helper (pre ++ serialize_tree t ++ rest) fuel pre.length =
        some (deserialized t, pre.length + (serialize_tree t).length - 1) := by
  induction t with
  | null => intro pre rest fuel hf; simp [isFull] at hf
  | node v f l r ihl ihr =>
    intro pre rest fuel hf hfuel
    cases fuel with
    | zero => simp [height] at hfuel
    | succ fuel =>
      by_cases h : (node v f l r).is_leaf = true
      · obtain ⟨rfl, rfl⟩ := (is_leaf_iff v f l r).mp h
        have hs : pre ++ serialize_tree (node v f null null) ++ rest
            = pre ++ tokL :: v :: rest := by simp [serialize_tree, is_leaf]
        have hs2 : pre ++ tokL :: v :: rest = (pre ++ [tokL]) ++ v :: rest := by simp
        have hg1 : (pre ++ tokL :: v :: rest).getD pre.length NUL = tokL :=
          getD_append_cons pre _ tokL NUL
        have hg2 : (pre ++ tokL :: v :: rest).getD (pre.length + 1) NUL = v := by
          rw [hs2]
          have := getD_append_cons (pre ++ [tokL]) rest v NUL
          simpa using this
        have hlen : ¬ pre.length ≥ (pre ++ tokL :: v :: rest).length := by simp
        have hLI : ¬ (tokL : Byte) = tokI := by decide
        rw [hs]
        simp only [deserialize_helper, hlen, if_false, hg1, hLI, if_true, hg2]
        simp [serialize_tree, is_leaf, deserialized]
      · have hnl : (node v f l r).is_leaf = false := by simpa using h
        have hf2 : isFull l = true ∧ isFull r = true := by
          simpa [isFull, h] using hf
        have hh : height l ≤ fuel ∧ height r ≤ fuel := by
          simp only [height] at hfuel
          omega
        have hl2 := ihl (pre ++ [tokI]) (serialize_tree r ++ rest) fuel hf2.1 hh.1
        have hr2 := ihr (pre ++ [tokI] ++ serialize_tree l) rest fuel hf2.2 hh.2
        have hs : pre ++ serialize_tree (node v f l r) ++ rest
            = pre ++ tokI :: (serialize_tree l ++ serialize_tree r ++ rest) := by
          simp [serialize_tree_internal hnl]
        have hsa : pre ++ [tokI] ++ serialize_tree l ++ (serialize_tree r ++ rest)
            = pre ++ tokI :: (serialize_tree l ++ serialize_tree r ++ rest) := by simp
        have hsb : pre ++ [tokI] ++ serialize_tree l ++ serialize_tree r ++ rest
            = pre ++ tokI :: (serialize_tree l ++ serialize_tree r ++ rest) := by simp
        rw [hsa] at hl2
        rw [hsb] at hr2
        have hg1 : (pre ++ tokI :: (serialize_tree l ++ serialize_tree r ++ rest)).getD
            pre.length NUL = tokI := getD_append_cons pre _ tokI NUL
        have hlen : ¬ pre.length ≥
            (pre ++ tokI :: (serialize_tree l ++ serialize_tree r ++ rest)).length := by simp
        have hpl := serialize_tree_pos (isFull_ne_null hf2.1)
        have hpr := serialize_tree_pos (isFull_ne_null hf2.2)
        have hi1 : (pre ++ [tokI]).length + (serialize_tree l).length - 1 + 1
            = (pre ++ [tokI] ++ serialize_tree l).length := by
          simp only [List.length_append, List.length_singleton]; omega
        have hl3 : (pre ++ [tokI]).length = pre.length + 1 := by simp
        rw [hs]
        simp only [deserialize_helper, hlen, if_false, hg1, if_true]
        rw [← hl3, hl2]
        simp only
        rw [hi1, hr2]
        simp only [Option.some.injEq, Prod.mk.injEq, List.length_append,
          List.length_singleton, serialize_tree_internal hnl, List.length_cons, List.length_nil,
          deserialized, hnl, Bool.false_eq_true, if_false, true_and]
        omega

/-! ## Termination of the decoder loop -/

theorem descend_null (p : List Byte) : descend null p = null := by
  cases p <;> rfl

theorem descend_cons (v : Byte) (f : Nat) (l r : HuffmanTreeNode) (x : Byte) (ps : List Byte) :
    descend (node v f l r) (x :: ps) = if x = bit0 then descend l ps else descend r ps := rfl

/-- The entries of `rootPaths` are the leaves with their paths from the root:
`(b, p)` is an entry exactly when `p` is a string of `'0'` and `'1'` that leads
from the root to a leaf holding `b`. -/
theorem mem_rootPaths_iff (t : HuffmanTreeNode) :
    ∀ (b : Byte) (p : List Byte), (b, p) ∈ rootPaths t ↔
      (∀ x ∈ p, x = bit0 ∨ x = bit1) ∧ (descend t p).is_leaf = true ∧
        (descend t p).get_val = b := by
  induction t with
  | null =>
    intro b p
    simp [rootPaths, descend_null, is_leaf]
  | node v f l r ihl ihr =>
    intro b p
    have h10 : ¬ (bit1 : Byte) = bit0 := by decide
    by_cases h : (node v f l r).is_leaf = true
    · have hlr := (is_leaf_iff v f l r).mp h
      cases p with
      | nil =>
        simp only [rootPaths, h, if_true, List.mem_singleton, Prod.mk.injEq, and_true,
          descend_nil, get_val, List.not_mem_nil, false_implies, implies_true, true_and]
        exact eq_comm
      | cons x ps =>
        rw [descend_cons, hlr.1, hlr.2]
        simp [rootPaths, is_leaf, descend_null]
    · have hnl : (node v f l r).is_leaf = false := by simpa using h
      cases p with
      | nil =>
        simp [rootPaths, hnl, descend_nil]
      | cons x ps =>
        rw [descend_cons]
        simp only [rootPaths, hnl, Bool.false_eq_true, if_false, List.mem_append, List.mem_map,
          Prod.mk.injEq, List.cons.injEq, List.mem_cons, forall_eq_or_imp]
        constructor
        · rintro (⟨a, ha, rfl, rfl, rfl⟩ | ⟨a, ha, rfl, rfl, rfl⟩)
          · have := (ihl a.1 a.2).mp ha
            exact ⟨⟨Or.inl rfl, this.1⟩, by simpa using this.2⟩
          · have := (ihr a.1 a.2).mp ha
            exact ⟨⟨Or.inr rfl, this.1⟩, by simpa [h10] using this.2⟩
        · rintro ⟨⟨hx, hps⟩, hd⟩
          rcases hx with rfl | rfl
          · left
            simp only [if_true] at hd
            exact ⟨(b, ps), (ihl b ps).mpr ⟨hps, hd⟩, rfl, rfl, rfl⟩
          · right
            simp only [h10, if_false] at hd
            exact ⟨(b, ps), (ihr b ps).mpr ⟨hps, hd⟩, rfl, rfl, rfl⟩

/-- C14. Codes are root paths: on a tree whose root is an internal node and
whose leaves hold pairwise distinct bytes, `createCharCodes` returns a table
whose keys are the bytes of the leaves and which maps the byte of every leaf to
the branch labels on the path from the root to that leaf; the shared string is
empty at the end.  A leaf may hold `'\0'`.  An internal node of the program
carries no payload: `buildTree` and `deserialize_helper`, the only places where
one is created, give it the byte `'\0'`, which is the hypothesis `hval` on the
root. -/
theorem codes_are_root_paths (root : HuffmanTreeNode) (hnn : root ≠ null)
    (hnl : root.is_leaf = false) (hval : root.get_val = NUL)
    (hnd : (leafVals root).Nodup) :
    ∃ codeMap, createCharCodes root [] = some (codeMap, []) ∧
      keys codeMap = leafVals root ∧
      ∀ p : List Byte, (∀ x ∈ p, x = bit0 ∨ x = bit1) → (descend root p).is_leaf = true →
        codeOf codeMap (descend root p).get_val = p := by
  cases root with
  | null => exact absurd rfl hnn
  | node v f l r =>
    refine ⟨rootPaths (node v f l r), createCharCodes_internal v f l r hval hnd hnl,
      keys_rootPaths _, ?_⟩
    intro p hbits hleaf
    have hmem : ((descend (node v f l r) p).get_val, p) ∈ rootPaths (node v f l r) :=
      (mem_rootPaths_iff _ _ p).mpr ⟨hbits, hleaf, rfl⟩
    have hnd2 : (keys (rootPaths (node v f l r))).Nodup := by
      rw [keys_rootPaths]; exact hnd
    simp only [codeOf, lookup_of_mem_nodup _ hnd2 _ _ hmem]

/-- Witness of C14 on a tree with a leaf that holds `'\0'`. -/
theorem codes_are_root_paths_witness :
    node NUL 0 (node 97 0 null null) (node NUL 0 (node NUL 0 null null) (node 98 0 null null))
      ≠ null ∧
    ∃ codeMap, createCharCodes (node NUL 0 (node 97 0 null null)
        (node NUL 0 (node NUL 0 null null) (node 98 0 null null))) [] = some (codeMap, []) ∧
      keys codeMap = leafVals (node NUL 0 (node 97 0 null null)
        (node NUL 0 (node NUL 0 null null) (node 98 0 null null))) ∧
      ∀ p : List Byte, (∀ x ∈ p, x = bit0 ∨ x = bit1) →
        (descend (node NUL 0 (node 97 0 null null)
          (node NUL 0 (node NUL 0 null null) (node 98 0 null null))) p).is_leaf = true →
        codeOf codeMap (descend (node NUL 0 (node 97 0 null null)
          (node NUL 0 (node NUL 0 null null) (node 98 0 null null))) p).get_val = p :=
  ⟨by decide, codes_are_root_paths _ (by decide) (by decide) (by decide) (by decide)⟩

/-! ## The scenario `"aaab"` -/

theorem buildTree_aaab (c : Containers) (hc : c.Lawful) :
    buildTree c [(97, 3), (98, 1)] =
        some (node NUL 4 (node 97 3 null null) (node 98 1 null null)) ∨
    buildTree c [(97, 3), (98, 1)] =
        some (node NUL 4 (node 98 1 null null) (node 97 3 null null)) := by
  obtain ⟨t, ht, hP⟩ := buildLoop_invariant c hc
    (fun q => q.Perm [node 97 3 null null, node 98 1 null null] ∨
      q = [node NUL 4 (node 97 3 null null) (node 98 1 null null)] ∨
      q = [node NUL 4 (node 98 1 null null) (node 97 3 null null)])
    (by
      intro q q2 hp h
      rcases h with h | h | h
      · exact Or.inl (hp.symm.trans h)
      · subst h
        exact Or.inr (Or.inl (List.perm_singleton.mp hp.symm))
      · subst h
        exact Or.inr (Or.inr (List.perm_singleton.mp hp.symm)))
    (by
      intro t1 t2 q _ h
      rcases h with h | h | h
      · have hlen := h.length_eq
        have hq : q = [] := List.length_eq_zero.mp (by simpa using hlen)
        subst hq
        have h1 : t1 ∈ [node 97 3 null null, node 98 1 null null] :=
          h.subset (List.mem_cons_self _ _)
        simp only [List.mem_cons, List.mem_singleton, List.not_mem_nil, or_false] at h1
        rcases h1 with rfl | rfl
        · have h2 := List.perm_singleton.mp (List.Perm.cons_inv h)
          simp only [List.cons.injEq, and_true] at h2
          subst h2
          exact Or.inr (Or.inl rfl)
        · have h2 := List.perm_singleton.mp
            (List.Perm.cons_inv (h.trans (List.Perm.swap _ _ _)))
          simp only [List.cons.injEq, and_true] at h2
          subst h2
          exact Or.inr (Or.inr rfl)
      · simp at h
      · simp at h)
    ((pushLeaves c (c.iterate [(97, 3), (98, 1)])).length + 1)
    (pushLeaves c (c.iterate [(97, 3), (98, 1)])) null
    (pushLeaves_ne_nil c hc _ (by simp)) (Nat.lt_succ_self _)
    (Or.inl ((pushLeaves_perm c hc _).trans ((hc.iterate_perm [(97, 3), (98, 1)]).map _)))
  have h1 : buildTree c [(97, 3), (98, 1)] = some t := ht
  rw [h1]
  rcases hP with h | h | h
  · have := h.length_eq
    simp at this
  · simp only [List.cons.injEq, and_true] at h
    exact Or.inl (by rw [h])
  · simp only [List.cons.injEq, and_true] at h
    exact Or.inr (by rw [h])

/-- C13. The scenario `"aaab"`: `count_freqs` gives `{a:3, b:1}`, `buildTree` an
internal root with the two leaves as children, `createCharCodes` the table
`{a:"0", b:"1"}` or `{b:"0", a:"1"}` according to the order of the children,
`asciiToBinary` a bit-string of length 4, and `decoder` on the serialized tree
and the bit-string returns `"aaab"`. -/
theorem scenario_aaab (c : Containers) (hc : c.Lawful) :
    count_freqs [97, 97, 97, 98] [] = [(97, 3), (98, 1)] ∧
    ∃ root codeMap charCode,
      buildTree c (count_freqs [97, 97, 97, 98] []) = some root ∧
      createCharCodes root [] = some (codeMap, charCode) ∧
      ((root = node NUL 4 (node 97 3 null null) (node 98 1 null null) ∧
          codeMap = [(97, [bit0]), (98, [bit1])]) ∨
        (root = node NUL 4 (node 98 1 null null) (node 97 3 null null) ∧
          codeMap = [(98, [bit0]), (97, [bit1])])) ∧
      (asciiToBinary codeMap [97, 97, 97, 98]).length = 4 ∧
      decoder (serialize_tree root) (asciiToBinary codeMap [97, 97, 97, 98]) =
        some (Except.ok [97, 97, 97, 98]) ∧
      roundTrip c [97, 97, 97, 98] = some (Except.ok [97, 97, 97, 98]) := by
  have hfreq : count_freqs [97, 97, 97, 98] [] = [(97, 3), (98, 1)] := by decide
  refine ⟨hfreq, ?_⟩
  rw [hfreq]
  rcases buildTree_aaab c hc with h | h
  · have hcodes : createCharCodes (node NUL 4 (node 97 3 null null) (node 98 1 null null)) []
        = some ([(97, [bit0]), (98, [bit1])], []) := by decide
    refine ⟨_, _, _, h, hcodes, Or.inl ⟨rfl, rfl⟩, by decide, rfl, ?_⟩
    rw [roundTrip_eq c _ (by decide) _ _ _ (by rw [hfreq]; exact h) hcodes]
    rfl
  · have hcodes : createCharCodes (node NUL 4 (node 98 1 null null) (node 97 3 null null)) []
        = some ([(98, [bit0]), (97, [bit1])], []) := by decide
    refine ⟨_, _, _, h, hcodes, Or.inr ⟨rfl, rfl⟩, by decide, rfl, ?_⟩
    rw [roundTrip_eq c _ (by decide) _ _ _ (by rw [hfreq]; exact h) hcodes]
    rfl

/-- Witness of C13 with the list containers. -/
theorem scenario_aaab_witness :
    listContainers.Lawful ∧
    count_freqs [97, 97, 97, 98] [] = [(97, 3), (98, 1)] ∧
    ∃ root codeMap charCode,
      buildTree listContainers (count_freqs [97, 97, 97, 98] []) = some root ∧
      createCharCodes root [] = some (codeMap, charCode) ∧
      ((root = node NUL 4 (node 97 3 null null) (node 98 1 null null) ∧
          codeMap = [(97, [bit0]), (98, [bit1])]) ∨
        (root = node NUL 4 (node 98 1 null null) (node 97 3 null null) ∧
          codeMap = [(98, [bit0]), (97, [bit1])])) ∧
      (asciiToBinary codeMap [97, 97, 97, 98]).length = 4 ∧
      decoder (serialize_tree root) (asciiToBinary codeMap [97, 97, 97, 98]) =
        some (Except.ok [97, 97, 97, 98]) ∧
      roundTrip listContainers [97, 97, 97, 98] = some (Except.ok [97, 97, 97, 98]) :=
  ⟨listContainers_lawful, scenario_aaab listContainers listContainers_lawful⟩

/-! ## The 32-bit `int` -/

theorem toInt32_of_range (x : Int) (h0 : -2147483648 ≤ x) (h1 : x < 2147483648) :
    toInt32 x = x := by
  unfold toInt32
  omega

theorem toInt32_natCast (n : Nat) (h : n < 2147483648) : toInt32 (n : Int) = (n : Int) :=
  toInt32_of_range _ (by omega) (by omega)

theorem toInt32_add_one (x : Int) : toInt32 (toInt32 x + 1) = toInt32 (x + 1) := by
  unfold toInt32
  omega

/-! ## Counting with `int` counters -/

/-- A map with exact counters read as a map with `int` counters. -/
theorem castMap_lookup (m : FreqMap) (b : Byte) :
    (m.map (fun e => (e.1, (e.2 : Int)))).lookup b = (m.lookup b).map (fun n => (n : Int)) := by
  induction m with
  | nil => rfl
  | cons e rest ih =>
    obtain ⟨k, n⟩ := e
    simp only [List.map_cons, lookup_cons_ite, ih]
    by_cases h : b = k <;> simp [h]

theorem machine_incrFreq_eq (a : Byte) (m : FreqMap) (h : freqOf m a + 1 < 2147483648) :
    Machine.incrFreq a (m.map (fun e => (e.1, (e.2 : Int)))) =
      (incrFreq a m).map (fun e => (e.1, (e.2 : Int))) := by
  induction m with
  | nil =>
    simp only [List.map_nil, Machine.incrFreq, incrFreq, List.map_cons]
    rw [toInt32_of_range _ (by omega) (by omega)]
    rfl
  | cons e rest ih =>
    obtain ⟨k, n⟩ := e
    by_cases hk : k = a
    · subst hk
      have hn : n + 1 < 2147483648 := by
        simpa [freqOf, lookup_cons_ite] using h
      simp only [List.map_cons, Machine.incrFreq, incrFreq, if_true]
      rw [toInt32_of_range _ (by omega) (by omega)]
      simp
    · have hak : ¬ a = k := fun h0 => hk h0.symm
      have h2 : freqOf rest a + 1 < 2147483648 := by
        simpa [freqOf, lookup_cons_ite, hak] using h
      simp only [List.map_cons, Machine.incrFreq, incrFreq, hk, if_false, ih h2]

theorem machine_count_freqs_cons (a : Byte) (s : List Byte) (m : Machine.FreqMap) :
    Machine.count_freqs (a :: s) m = Machine.count_freqs s (Machine.incrFreq a m) := rfl

theorem freqOf_incrFreq (a b : Byte) (m : FreqMap) :
    freqOf (incrFreq a m) b = if b = a then freqOf m a + 1 else freqOf m b := by
  by_cases h : b = a
  · simp [freqOf, lookup_incrFreq, h]
  · simp only [freqOf, lookup_incrFreq, h, if_false]

/-- Below `2^31` occurrences of every byte the `int` counters hold the exact
counts. -/
theorem machine_count_freqs_eq (S : List Byte) :
    ∀ m : FreqMap, (∀ b, freqOf m b + S.count b < 2147483648) →
      Machine.count_freqs S (m.map (fun e => (e.1, (e.2 : Int)))) =
        (count_freqs S m).map (fun e => (e.1, (e.2 : Int))) := by
  induction S with
  | nil => intro m _; rfl
  | cons a s ih =>
    intro m h
    have ha := h a
    simp only [List.count_cons_self] at ha
    rw [machine_count_freqs_cons, count_freqs_cons, machine_incrFreq_eq a m (by omega)]
    apply ih
    intro b
    have hb := h b
    rw [freqOf_incrFreq]
    by_cases hba : b = a
    · subst hba
      simp only [List.count_cons_self, if_true] at hb ⊢
      omega
    · simp only [hba, if_false]
      rw [List.count_cons_of_ne hba] at hb
      exact hb

theorem sum_castMap (m : FreqMap) :
    ((m.map (fun e => (e.1, (e.2 : Int)))).map Prod.snd).sum = ((m.map Prod.snd).sum : Int) := by
  induction m with
  | nil => rfl
  | cons e rest ih =>
    simp only [List.map_cons, List.sum_cons, ih]
    push_cast
    rfl

/-- C10 as amended. Frequency counting is exact while the counters fit: for
every byte sequence in which no byte occurs `2^31` times or more, `count_freqs`
started from an empty map maps every byte of the sequence to its number of
occurrences, has no other key and no key twice, is empty exactly when the
sequence is empty, and its counts sum to the length of the sequence. -/
theorem counting_exact (S : List Byte) (hS : ∀ b, S.count b < 2147483648) :
    (∀ b, b ∈ S → (Machine.count_freqs S []).lookup b = some (S.count b : Int)) ∧
    (∀ b, b ∈ keys (Machine.count_freqs S []) ↔ b ∈ S) ∧
    (keys (Machine.count_freqs S [])).Nodup ∧
    (Machine.count_freqs S [] = [] ↔ S = []) ∧
    ((Machine.count_freqs S []).map Prod.snd).sum = (S.length : Int) := by
  have heq : Machine.count_freqs S [] = (count_freqs S []).map (fun e => (e.1, (e.2 : Int))) :=
    machine_count_freqs_eq S [] (by
      intro b
      have := hS b
      simpa [freqOf] using this)
  obtain ⟨h1, h2, h3, h4, h5⟩ := count_freqs_exact S
  have hkeys : keys (Machine.count_freqs S []) = keys (count_freqs S []) := by
    rw [heq]
    simp [keys, Function.comp_def]
  refine ⟨?_, ?_, ?_, ?_, ?_⟩
  · intro b hb
    rw [heq, castMap_lookup, h1 b hb]
    rfl
  · intro b
    rw [hkeys]
    exact h2 b
  · rw [hkeys]
    exact h3
  · rw [heq, List.map_eq_nil_iff]
    exact h4
  · rw [heq, sum_castMap, h5]

/-- Witness of C10 as amended on the input `"aba"`. -/
theorem counting_exact_witness :
    (∀ b, ([97, 98, 97] : List Byte).count b < 2147483648) ∧
    (∀ b, b ∈ ([97, 98, 97] : List Byte) →
      (Machine.count_freqs [97, 98, 97] []).lookup b =
        some (([97, 98, 97] : List Byte).count b : Int)) ∧
    (∀ b, b ∈ keys (Machine.count_freqs [97, 98, 97] []) ↔ b ∈ ([97, 98, 97] : List Byte)) ∧
    (keys (Machine.count_freqs [97, 98, 97] [])).Nodup ∧
    (Machine.count_freqs [97, 98, 97] [] = [] ↔ ([97, 98, 97] : List Byte) = []) ∧
    ((Machine.count_freqs [97, 98, 97] []).map Prod.snd).sum =
      ((([97, 98, 97] : List Byte).length : Nat) : Int) :=
  ⟨fun b => Nat.lt_of_le_of_lt (List.count_le_length _ _) (by decide),
    counting_exact [97, 98, 97]
      (fun b => Nat.lt_of_le_of_lt (List.count_le_length _ _) (by decide))⟩

theorem machine_count_freqs_replicate (b : Byte) (n : Nat) :
    ∀ k : Int, Machine.count_freqs (List.replicate n b) [(b, toInt32 k)] =
      [(b, toInt32 (k + n))] := by
  induction n with
  | zero => intro k; simp [Machine.count_freqs]
  | succ n ih =>
    intro k
    rw [List.replicate_succ, machine_count_freqs_cons]
    have h1 : Machine.incrFreq b [(b, toInt32 k)] = [(b, toInt32 (k + 1))] := by
      simp [Machine.incrFreq, toInt32_add_one]
    rw [h1, ih]
    have h2 : k + 1 + (n : Int) = k + ((n + 1 : Nat) : Int) := by push_cast; ring
    rw [h2]

/-- C10 as stated fails: after `2^31` copies of the byte `'a'` the `int` counter
has wrapped to `-2^31`, where the claim asks for the count `2^31`. -/
theorem counting_wraps :
    (List.replicate (2147483647 + 1) (97 : Byte)).count 97 = 2147483648 ∧
    Machine.count_freqs (List.replicate (2147483647 + 1) 97) [] = [(97, -2147483648)] ∧
    (Machine.count_freqs (List.replicate (2147483647 + 1) 97) []).lookup 97 ≠
      some (((List.replicate (2147483647 + 1) (97 : Byte)).count 97 : Nat) : Int) := by
  have hcount : (List.replicate (2147483647 + 1) (97 : Byte)).count 97 = 2147483648 := by
    rw [List.count_replicate_self]
  have hrun : Machine.count_freqs (List.replicate (2147483647 + 1) 97) []
      = [(97, -2147483648)] := by
    rw [List.replicate_succ, machine_count_freqs_cons]
    have h1 : Machine.incrFreq 97 [] = [(97, toInt32 1)] := rfl
    rw [h1, machine_count_freqs_replicate]
    rfl
  refine ⟨hcount, hrun, ?_⟩
  rw [hrun, hcount]
  simp [lookup_cons_ite]

/-! ## `binaryToASCII` with `int binLen` -/

/-- Below `2^31` characters the loop with `int` cursors runs as the loop with
exact cursors, provided the assignment `index = binLen + 1` of the null branch
does not overflow or is never reached because every internal node has two
children. -/
theorem machine_loop_eq (root : HuffmanTreeNode) (bin : List Byte)
    (hlen : bin.length < 2147483648) :
    ∀ (fuel : Nat) (curr : HuffmanTreeNode) (i : Nat) (res : List Byte),
      i ≤ bin.length + 1 → (i = bin.length + 1 → bin.length + 1 < 2147483648) →
      (¬ bin.length + 1 < 2147483648 → isFull root = true ∧ isFull curr = true) →
      Machine.binaryToASCII_loop root bin (bin.length : Int) fuel curr (i : Int) res =
        binaryToASCII_loop root bin fuel curr i res := by
  intro fuel
  induction fuel with
  | zero => intro curr i res _ _ _; rfl
  | succ fuel ih =>
    intro curr i res hi hiQ hfull
    have hc : ((i : Int) ≤ (bin.length : Int)) ↔ i ≤ bin.length := Int.ofNat_le
    have he : ((i : Int) = (bin.length : Int)) ↔ i = bin.length := Int.ofNat_inj
    have ht : (i : Int).toNat = i := Int.toNat_ofNat i
    cases curr with
    | null =>
      rw [Machine.binaryToASCII_loop, binaryToASCII_loop]
      by_cases h1 : i ≤ bin.length
      · simp only [hc, h1, if_true]
        have hQ : bin.length + 1 < 2147483648 := by
          by_contra hn
          have := (hfull hn).2
          simp [isFull] at this
        have hw : toInt32 ((bin.length : Int) + 1) = ((bin.length + 1 : Nat) : Int) := by
          rw [toInt32_of_range _ (by omega) (by omega)]
          push_cast
          rfl
        rw [hw]
        exact ih null (bin.length + 1) res (Nat.le_refl _) (fun _ => hQ)
          (fun hn => absurd hQ hn)
      · simp only [hc, h1, if_false]
    | node v f l r =>
      rw [Machine.binaryToASCII_loop, binaryToASCII_loop]
      by_cases h1 : i ≤ bin.length
      · simp only [hc, h1, if_true, he, ht]
        by_cases h2 : (node v f l r).is_leaf = true
        · simp only [h2, if_true]
          by_cases h3 : i = bin.length
          · simp only [h3, if_true]
          · simp only [h3, if_false]
            exact ih root i (res ++ [v]) hi hiQ (fun hn => ⟨(hfull hn).1, (hfull hn).1⟩)
        · simp only [h2, Bool.false_eq_true, if_false]
          by_cases h3 : i = bin.length
          · simp only [h3, if_true]
          · simp only [h3, if_false]
            have hw : toInt32 ((i : Int) + 1) = ((i + 1 : Nat) : Int) := by
              rw [toInt32_of_range _ (by omega) (by omega)]
              push_cast
              rfl
            have hch : ¬ bin.length + 1 < 2147483648 →
                isFull l = true ∧ isFull r = true := by
              intro hn
              have := (hfull hn).2
              simpa [isFull, h2] using this
            rw [hw]
            by_cases h4 : bin.getD i NUL = bit0
            · simp only [h4, if_true]
              exact ih l (i + 1) res (by omega) (fun h0 => absurd h0 (by omega))
                (fun hn => ⟨(hfull hn).1, (hch hn).1⟩)
            · simp only [h4, if_false]
              exact ih r (i + 1) res (by omega) (fun h0 => absurd h0 (by omega))
                (fun hn => ⟨(hfull hn).1, (hch hn).2⟩)
      · simp only [hc, h1, if_false]

theorem machine_binaryToASCII_eq (root : HuffmanTreeNode) (bin : List Byte)
    (hlen : bin.length < 2147483648)
    (h : bin.length + 1 < 2147483648 ∨ isFull root = true) :
    Machine.binaryToASCII root bin = binaryToASCII root bin := by
  unfold Machine.binaryToASCII binaryToASCII
  rw [toInt32_natCast _ hlen]
  have := machine_loop_eq root bin hlen (2 * bin.length + 3) root 0 [] (by omega)
    (fun h0 => by omega) (fun hn => by
      rcases h with h | h
      · exact absurd h hn
      · exact ⟨h, h⟩)
  simpa using this

/-- A bit-string whose length is negative as an `int` is not read at all: the
loop is skipped and the empty string returned. -/
theorem machine_binaryToASCII_skipped (root : HuffmanTreeNode) (bin : List Byte)
    (h : toInt32 bin.length < 0) :
    Machine.binaryToASCII root bin = some (Except.ok []) := by
  unfold Machine.binaryToASCII
  have hfuel : 2 * bin.length + 3 = (2 * bin.length + 2) + 1 := by omega
  have hn : ¬ (0 : Int) ≤ toInt32 bin.length := by omega
  rw [hfuel]
  cases root with
  | null =>
    rw [Machine.binaryToASCII_loop]
    simp only [hn, if_false]
  | node v f l r =>
    rw [Machine.binaryToASCII_loop]
    simp only [hn, if_false]

theorem length_flatMap_replicate (n : Nat) (e : Byte × List Byte) :
    ((List.replicate n e).flatMap Prod.snd).length = n * e.2.length := by
  induction n with
  | zero => simp
  | succ n ih =>
    rw [List.replicate_succ, List.flatMap_cons, List.length_append, ih, Nat.succ_mul]
    omega

/-- C6 as amended. Truncation is detected in a bit-string of fewer than `2^31`
characters: on a tree whose root is internal and in which every internal node
has two children, complete codes followed by at least one bit whose walk from
the root ends on an internal node make `binaryToASCII` raise the mismatch
error. -/
theorem truncated_bits_rejected (root : HuffmanTreeNode) (hfull : isFull root = true)
    (hroot : root.is_leaf = false)
    (ps : List (Byte × List Byte)) (hps : ∀ e ∈ ps, e ∈ rootPaths root)
    (p : List Byte) (hp : p ≠ []) (hnn : descend root p ≠ null)
    (hnl : (descend root p).is_leaf = false)
    (hlen : (ps.flatMap Prod.snd ++ p).length < 2147483648) :
    Machine.binaryToASCII root (ps.flatMap Prod.snd ++ p) =
      some (Except.error ("Encoding did not match Huffman tree.")) := by
  rw [machine_binaryToASCII_eq root _ hlen (Or.inr hfull)]
  exact truncation_detected root hroot ps hps p hp hnn hnl

/-- Witness of C6 as amended: the tree of `"ILaILbLc"` and the bit-string
`"01"`, which ends after the first bit of the code `"10"`. -/
theorem truncated_bits_rejected_witness :
    isFull (node NUL 0 (node 97 0 null null)
        (node NUL 0 (node 98 0 null null) (node 99 0 null null))) = true ∧
    Machine.binaryToASCII (node NUL 0 (node 97 0 null null)
        (node NUL 0 (node 98 0 null null) (node 99 0 null null)))
      ([((97 : Byte), [bit0])].flatMap Prod.snd ++ [bit1]) =
      some (Except.error ("Encoding did not match Huffman tree.")) :=
  ⟨by decide, truncated_bits_rejected _ (by decide) (by decide) [(97, [bit0])] (by decide)
    [bit1] (by decide) (by decide) (by decide) (by decide)⟩

/-- C6 as stated fails on a bit-string of `2^31` characters: on the tree of
`"ILaILbLc"`, the code `"0"` repeated `2^31 - 1` times and then the single bit
`"1"` end on an internal node, but `int(binString.length())` is negative, the
loop is skipped and the empty string is returned without an error. -/
theorem truncated_long_bits_accepted :
    isFull (node NUL 0 (node 97 0 null null)
        (node NUL 0 (node 98 0 null null) (node 99 0 null null))) = true ∧
    (∀ e ∈ List.replicate 2147483647 ((97 : Byte), [bit0]),
      e ∈ rootPaths (node NUL 0 (node 97 0 null null)
        (node NUL 0 (node 98 0 null null) (node 99 0 null null)))) ∧
    descend (node NUL 0 (node 97 0 null null)
        (node NUL 0 (node 98 0 null null) (node 99 0 null null))) [bit1] =
      node NUL 0 (node 98 0 null null) (node 99 0 null null) ∧
    Machine.binaryToASCII (node NUL 0 (node 97 0 null null)
        (node NUL 0 (node 98 0 null null) (node 99 0 null null)))
      ((List.replicate 2147483647 ((97 : Byte), [bit0])).flatMap Prod.snd ++ [bit1]) =
      some (Except.ok []) := by
  refine ⟨by decide, ?_, by decide, ?_⟩
  · intro e he
    rw [List.eq_of_mem_replicate he]
    decide
  · apply machine_binaryToASCII_skipped
    rw [List.length_append, length_flatMap_replicate]
    decide

/-- C15 as amended. The decode automaton on a well-formed tree and a bit-string
of fewer than `2^31` characters: when the root is internal and every internal
node has two children, `binaryToASCII` applied to the concatenation of the root
paths of a non-empty sequence of leaves returns, without error, the bytes of
these leaves in order; leaf bytes need not be distinct. -/
theorem decode_codes (root : HuffmanTreeNode) (hfull : isFull root = true)
    (hroot : root.is_leaf = false) (ps : List (Byte × List Byte))
    (hps : ∀ e ∈ ps, e ∈ rootPaths root) (hne : ps ≠ [])
    (hlen : (ps.flatMap Prod.snd).length < 2147483648) :
    Machine.binaryToASCII root (ps.flatMap Prod.snd) = some (Except.ok (ps.map Prod.fst)) := by
  rw [machine_binaryToASCII_eq root _ hlen (Or.inr hfull)]
  exact binaryToASCII_codes root hroot ps hps hne

/-- Witness of C15 as amended on a tree with two leaves holding the same byte
and the leaves at `"0"`, `"11"`, `"10"`, `"0"`. -/
theorem decode_codes_witness :
    isFull (node NUL 0 (node 97 0 null null)
      (node NUL 0 (node 98 0 null null) (node 97 0 null null))) = true ∧
    Machine.binaryToASCII (node NUL 0 (node 97 0 null null)
        (node NUL 0 (node 98 0 null null) (node 97 0 null null)))
      ([((97 : Byte), [bit0]), (97, [bit1, bit1]), (98, [bit1, bit0]),
        (97, [bit0])].flatMap Prod.snd) =
      some (Except.ok ([((97 : Byte), [bit0]), (97, [bit1, bit1]), (98, [bit1, bit0]),
        (97, [bit0])].map Prod.fst)) :=
  ⟨by decide, decode_codes _ (by decide) (by decide) _ (by decide) (by decide) (by decide)⟩

/-- C15 as stated fails on `2^31` codes: on the tree of `"ILaLb"` the code `"0"`
of the leaf `'a'` repeated `2^31` times is a bit-string whose length is negative
as an `int`; the loop is skipped and the empty string returned instead of `2^31`
bytes `'a'`. -/
theorem decode_long_returns_empty :
    isFull (node NUL 0 (node 97 0 null null) (node 98 0 null null)) = true ∧
    (∀ e ∈ List.replicate 2147483648 ((97 : Byte), [bit0]),
      e ∈ rootPaths (node NUL 0 (node 97 0 null null) (node 98 0 null null))) ∧
    ((List.replicate 2147483648 ((97 : Byte), [bit0])).map Prod.fst).length = 2147483648 ∧
    Machine.binaryToASCII (node NUL 0 (node 97 0 null null) (node 98 0 null null))
      ((List.replicate 2147483648 ((97 : Byte), [bit0])).flatMap Prod.snd) =
      some (Except.ok []) := by
  refine ⟨by decide, ?_, ?_, ?_⟩
  · intro e he
    rw [List.eq_of_mem_replicate he]
    decide
  · rw [List.length_map, List.length_replicate]
  · apply machine_binaryToASCII_skipped
    rw [length_flatMap_replicate]
    decide

/-- C7 as amended. A walk that follows a bit into a missing child is not
reported: in a bit-string of fewer than `2^31 - 1` characters, after any
complete codes, `binaryToASCII` returns the bytes decoded so far and raises no
error, whatever bits follow. -/
theorem null_child_returns (root : HuffmanTreeNode)
    (ps : List (Byte × List Byte)) (hps : ∀ e ∈ ps, e ∈ rootPaths root)
    (p rest : List Byte) (hp : p ≠ []) (hd : descend root p = null)
    (hq : ∀ q, q <+: p → (descend root q).is_leaf = false)
    (hlen : (ps.flatMap Prod.snd ++ p ++ rest).length + 1 < 2147483648) :
    Machine.binaryToASCII root (ps.flatMap Prod.snd ++ p ++ rest) =
      some (Except.ok (ps.map Prod.fst)) := by
  rw [machine_binaryToASCII_eq root _ (by omega) (Or.inl hlen)]
  exact missing_child_returns root ps hps p rest hp hd hq

/-- Witness of C7 as amended, on the tree of `"ILa"` and the bit-string `"1"`. -/
theorem null_child_returns_witness :
    Machine.deserialize_tree [tokI, tokL, 97] = some (node NUL 0 (node 97 0 null null) null) ∧
    descend (node NUL 0 (node 97 0 null null) null) [bit1] = null ∧
    Machine.binaryToASCII (node NUL 0 (node 97 0 null null) null)
      (([] : List (Byte × List Byte)).flatMap Prod.snd ++ [bit1] ++ []) =
      some (Except.ok (([] : List (Byte × List Byte)).map Prod.fst)) :=
  ⟨by decide, by decide,
    null_child_returns _ [] (by simp) [bit1] [] (by decide) (by decide) (by
      intro q hq
      rcases List.prefix_cons_iff.mp hq with h | ⟨t, rfl, ht⟩
      · subst h; rfl
      · rw [List.prefix_nil] at ht; subst ht; rfl) (by decide)⟩

/-- C7 as stated fails: on the tree deserialized from `"ILa"` the bit `"1"` leads
into the missing right child, and `binaryToASCII` returns the empty string
instead of raising the mismatch error.  The bytes decoded before the walk are
returned only while the length fits an `int`: after the code `"0"` repeated
`2^31 - 1` times the same bit gives the empty string as well. -/
theorem null_child_not_reported :
    Machine.deserialize_tree [tokI, tokL, 97] = some (node NUL 0 (node 97 0 null null) null) ∧
    descend (node NUL 0 (node 97 0 null null) null) [bit1] = null ∧
    Machine.binaryToASCII (node NUL 0 (node 97 0 null null) null) [bit1] =
      some (Except.ok []) ∧
    (¬ ∃ msg, Machine.binaryToASCII (node NUL 0 (node 97 0 null null) null) [bit1] =
      some (Except.error msg)) ∧
    Machine.binaryToASCII (node NUL 0 (node 97 0 null null) null)
      ((List.replicate 2147483647 ((97 : Byte), [bit0])).flatMap Prod.snd ++ [bit1]) =
      some (Except.ok []) := by
  have h2 : Machine.binaryToASCII (node NUL 0 (node 97 0 null null) null) [bit1] =
      some (Except.ok []) := by
    rw [machine_binaryToASCII_eq _ _ (by decide) (Or.inl (by decide))]
    rfl
  refine ⟨by decide, by decide, h2, ?_, ?_⟩
  · rintro ⟨msg, h⟩
    rw [h2] at h
    cases h
  · apply machine_binaryToASCII_skipped
    rw [List.length_append, length_flatMap_replicate]
    decide

/-! ## `deserialize_helper` with `int index` -/

theorem deserialize_helper_le (s : List Byte) :
    ∀ (fuel i : Nat) (t : HuffmanTreeNode) (r : Nat),
      deserialize_helper s fuel i = some (t, r) → i ≤ r := by
  intro fuel
  induction fuel with
  | zero => intro i t r h; simp [deserialize_helper] at h
  | succ fuel ih =>
    intro i t r h
    rw [deserialize_helper] at h
    by_cases h1 : i ≥ s.length
    · simp only [h1, if_true, Option.some.injEq, Prod.mk.injEq] at h
      omega
    · simp only [h1, if_false] at h
      by_cases hI : s.getD i NUL = tokI
      · simp only [hI, if_true] at h
        cases hl : deserialize_helper s fuel (i + 1) with
        | none => simp [hl] at h
        | some a =>
          obtain ⟨lt, i1⟩ := a
          simp only [hl] at h
          cases hr : deserialize_helper s fuel (i1 + 1) with
          | none => simp [hr] at h
          | some b =>
            obtain ⟨rt, i2⟩ := b
            simp only [hr, Option.some.injEq, Prod.mk.injEq] at h
            have := ih _ _ _ hl
            have := ih _ _ _ hr
            omega
      · simp only [hI, if_false] at h
        by_cases hL : s.getD i NUL = tokL
        · simp only [hL, if_true, Option.some.injEq, Prod.mk.injEq] at h
          omega
        · simp only [hL, if_false, Option.some.injEq, Prod.mk.injEq] at h
          omega

/-- On a string of fewer than `2^31` characters a run of `deserialize_helper`
whose cursor stays below `2^31` is the same with `int` cursors. -/
theorem machine_deserialize_helper_eq (s : List Byte) (hlen : s.length < 2147483648) :
    ∀ (fuel i : Nat) (t : HuffmanTreeNode) (r : Nat),
      deserialize_helper s fuel i = some (t, r) → r < 2147483648 →
      Machine.deserialize_helper s fuel (i : Int) = some (t, (r : Int)) := by
  intro fuel
  induction fuel with
  | zero => intro i t r h; simp [deserialize_helper] at h
  | succ fuel ih =>
    intro i t r h hr
    have hle := deserialize_helper_le s _ _ _ _ h
    have hw : toInt32 ((i : Int) + 1) = ((i + 1 : Nat) : Int) → True := fun _ => trivial
    rw [deserialize_helper] at h
    rw [Machine.deserialize_helper, toInt32_natCast _ hlen]
    have hc : ((i : Int) ≥ (s.length : Int)) ↔ i ≥ s.length := Int.ofNat_le
    have ht : (i : Int).toNat = i := Int.toNat_ofNat i
    by_cases h1 : i ≥ s.length
    · simp only [h1, if_true, Option.some.injEq, Prod.mk.injEq] at h
      simp only [hc, h1, if_true, Option.some.injEq, Prod.mk.injEq]
      exact ⟨h.1, by exact_mod_cast h.2⟩
    · simp only [h1, if_false] at h
      simp only [hc, h1, if_false, ht]
      have hw1 : toInt32 ((i : Int) + 1) = ((i + 1 : Nat) : Int) := by
        rw [toInt32_of_range _ (by omega) (by omega)]
        push_cast
        rfl
      by_cases hI : s.getD i NUL = tokI
      · simp only [hI, if_true] at h ⊢
        cases hl : deserialize_helper s fuel (i + 1) with
        | none => simp [hl] at h
        | some a =>
          obtain ⟨lt, i1⟩ := a
          simp only [hl] at h
          cases hr2 : deserialize_helper s fuel (i1 + 1) with
          | none => simp [hr2] at h
          | some b =>
            obtain ⟨rt, i2⟩ := b
            simp only [hr2, Option.some.injEq, Prod.mk.injEq] at h
            have hle2 := deserialize_helper_le s _ _ _ _ hr2
            have hi2 : i2 < 2147483648 := by omega
            have hw2 : toInt32 ((i1 : Int) + 1) = ((i1 + 1 : Nat) : Int) := by
              rw [toInt32_of_range _ (by omega) (by omega)]
              push_cast
              rfl
            rw [hw1, ih _ _ _ hl (by omega)]
            simp only
            rw [hw2, ih _ _ _ hr2 hi2]
            simp only [Option.some.injEq, Prod.mk.injEq]
            exact ⟨h.1, by exact_mod_cast h.2⟩
      · simp only [hI, if_false] at h ⊢
        by_cases hL : s.getD i NUL = tokL
        · simp only [hL, if_true, Option.some.injEq, Prod.mk.injEq] at h ⊢
          rw [hw1, Int.toNat_ofNat]
          exact ⟨h.1, by exact_mod_cast h.2⟩
        · simp only [hL, if_false, Option.some.injEq, Prod.mk.injEq] at h ⊢
          exact ⟨h.1, by exact_mod_cast h.2⟩

/-- A string whose length is not positive as an `int` is not read at all:
`deserialize_helper` returns `nullptr` at once. -/
theorem machine_deserialize_helper_skipped (s : List Byte) (fuel : Nat)
    (h : toInt32 s.length ≤ 0) :
    Machine.deserialize_helper s (fuel + 1) 0 = some (null, 0) := by
  rw [Machine.deserialize_helper]
  have hn : (0 : Int) ≥ toInt32 s.length := h
  simp only [hn, if_true]

/-- C17 as amended. Deserialization stops at the end of the first complete tree
when the string has fewer than `2^31` characters: for a tree in which every
internal node has two children, `deserialize_helper` run from cursor 0 on its
serialization followed by any string returns one and the same tree, of the same
shape and leaf bytes, whatever the string that follows, and leaves the cursor
on the last character of the serialization. -/
theorem deserialize_stops_at_tree (T : HuffmanTreeNode) (hfull : isFull T = true) :
    ∃ t2, sameShape T t2 = true ∧
      ∀ r : List Byte, (serialize_tree T ++ r).length < 2147483648 →
        Machine.deserialize_helper (serialize_tree T ++ r)
            ((serialize_tree T ++ r).length + 1) 0 =
          some (t2, ((serialize_tree T).length : Int) - 1) := by
  refine ⟨deserialized T, sameShape_deserialized T, ?_⟩
  intro r hlen
  have h := deserialize_helper_serialize_eq T [] r ((serialize_tree T ++ r).length + 1) hfull (by
    have := height_le_serialize T hfull
    simp only [List.length_append]
    omega)
  simp only [List.nil_append, List.length_nil, Nat.zero_add] at h
  have hpos := serialize_tree_pos (isFull_ne_null hfull)
  have hlt : (serialize_tree T).length - 1 < 2147483648 := by
    simp only [List.length_append] at hlen
    omega
  have h2 := machine_deserialize_helper_eq _ hlen _ 0 _ _ h hlt
  have hcast : (((serialize_tree T).length - 1 : Nat) : Int)
      = ((serialize_tree T).length : Int) - 1 := by omega
  rw [hcast] at h2
  exact h2

/-- Witness of C17 as amended on the tree of `"ILaLb"`. -/
theorem deserialize_stops_at_tree_witness :
    isFull (node NUL 0 (node 97 0 null null) (node 98 0 null null)) = true ∧
    ∃ t2, sameShape (node NUL 0 (node 97 0 null null) (node 98 0 null null)) t2 = true ∧
      ∀ r : List Byte,
        (serialize_tree (node NUL 0 (node 97 0 null null) (node 98 0 null null)) ++ r).length
          < 2147483648 →
        Machine.deserialize_helper
            (serialize_tree (node NUL 0 (node 97 0 null null) (node 98 0 null null)) ++ r)
            ((serialize_tree (node NUL 0 (node 97 0 null null) (node 98 0 null null))
              ++ r).length + 1) 0 =
          some (t2,
            ((serialize_tree (node NUL 0 (node 97 0 null null)
              (node 98 0 null null))).length : Int) - 1) :=
  ⟨by decide, deserialize_stops_at_tree _ (by decide)⟩

/-- C17 as stated fails on a string of `2^31` characters: the serialization
`"La"` of a leaf followed by `2^31 - 2` more characters has a length that is
negative as an `int`, and `deserialize_helper` returns `nullptr` at once with
the cursor still at 0, not the leaf with the cursor at 1. -/
theorem deserialize_long_returns_null :
    isFull (node 97 0 null null) = true ∧
    serialize_tree (node 97 0 null null) = [tokL, 97] ∧
    Machine.deserialize_helper
        (serialize_tree (node 97 0 null null) ++ List.replicate 2147483646 NUL)
        ((serialize_tree (node 97 0 null null) ++ List.replicate 2147483646 NUL).length + 1) 0 =
      some (null, 0) ∧
    sameShape (node 97 0 null null) null = false := by
  refine ⟨by decide, by decide, ?_, by decide⟩
  apply machine_deserialize_helper_skipped
  rw [List.length_append, List.length_replicate]
  decide

/-! ## Deserialization at the end of the stream -/

/-- The cursor that `deserialize_helper` returns is the entry cursor or lies
within twice the length of the string. -/
theorem deserialize_helper_cursor_le (s : List Byte) :
    ∀ (fuel i : Nat) (t : HuffmanTreeNode) (r : Nat),
      deserialize_helper s fuel i = some (t, r) → r ≤ i ∨ r + i ≤ 2 * s.length := by
  intro fuel
  induction fuel with
  | zero => intro i t r h; simp [deserialize_helper] at h
  | succ fuel ih =>
    intro i t r h
    rw [deserialize_helper] at h
    by_cases h1 : i ≥ s.length
    · simp only [h1, if_true, Option.some.injEq, Prod.mk.injEq] at h
      omega
    · simp only [h1, if_false] at h
      by_cases hI : s.getD i NUL = tokI
      · simp only [hI, if_true] at h
        cases hl : deserialize_helper s fuel (i + 1) with
        | none => simp [hl] at h
        | some a =>
          obtain ⟨lt, i1⟩ := a
          simp only [hl] at h
          cases hr : deserialize_helper s fuel (i1 + 1) with
          | none => simp [hr] at h
          | some b =>
            obtain ⟨rt, i2⟩ := b
            simp only [hr, Option.some.injEq, Prod.mk.injEq] at h
            have := ih _ _ _ hl
            have := ih _ _ _ hr
            have := deserialize_helper_le s _ _ _ _ hl
            omega
      · simp only [hI, if_false] at h
        by_cases hL : s.getD i NUL = tokL
        · simp only [hL, if_true, Option.some.injEq, Prod.mk.injEq] at h
          omega
        · simp only [hL, if_false, Option.some.injEq, Prod.mk.injEq] at h
          omega

/-- C12. Deserialization at the end of the stream, on a string short enough
for the `int` cursor (twice its length is below `2^31`): `deserialize_helper`
returns a result from every cursor, there being no error outcome, and the
result is an empty subtree with the cursor unchanged when the cursor is at or
past the end and when the token is neither `'I'` nor `'L'`.  When the string
ends right after an `'L'` token the result is not an empty subtree: the
terminator `'\0'` is read as payload and a leaf holding it is returned, with
the cursor one past the token. -/
theorem deserialize_end_of_stream (s : List Byte) (index : Nat)
    (hlen : 2 * s.length < 2147483648) (hidx : index < 2147483648) :
    (∃ r, Machine.deserialize_helper s (s.length + 1) (index : Int) = some r) ∧
    (s.length ≤ index →
      Machine.deserialize_helper s (s.length + 1) (index : Int) = some (null, (index : Int))) ∧
    (index < s.length → s.getD index NUL ≠ tokI → s.getD index NUL ≠ tokL →
      Machine.deserialize_helper s (s.length + 1) (index : Int) = some (null, (index : Int))) ∧
    (index + 1 = s.length → s.getD index NUL = tokL →
      Machine.deserialize_helper s (s.length + 1) (index : Int) =
        some (node NUL 0 null null, (index : Int) + 1)) := by
  have hl : s.length < 2147483648 := by omega
  have hbridge : ∀ t (r : Nat), deserialize_helper s (s.length + 1) index = some (t, r) →
      Machine.deserialize_helper s (s.length + 1) (index : Int) = some (t, (r : Int)) := by
    intro t r h
    have h1 := deserialize_helper_cursor_le s _ _ _ _ h
    exact machine_deserialize_helper_eq s hl _ _ _ _ h (by omega)
  refine ⟨?_, ?_, ?_, ?_⟩
  · obtain ⟨⟨t, r⟩, hr, _⟩ :=
      deserialize_helper_total s (s.length + 1) index (by omega) (by omega)
    exact ⟨_, hbridge t r hr⟩
  · intro h
    exact hbridge null index (by simp [deserialize_helper, h])
  · intro h1 h2 h3
    have hlt : ¬ index ≥ s.length := by omega
    exact hbridge null index (by simp only [deserialize_helper, hlt, if_false, h2, h3])
  · intro h3 h2
    have hlt : ¬ index ≥ s.length := by omega
    have hLI : ¬ (tokL : Byte) = tokI := by decide
    have hpay : s.getD (index + 1) NUL = NUL := by
      rw [h3]
      simp [List.getD_eq_getElem?_getD]
    have := hbridge (node NUL 0 null null) (index + 1) (by
      simp only [deserialize_helper, hlt, if_false, h2, hLI, if_true, hpay])
    rw [this]
    push_cast
    rfl

/-- The inputs `""`, `"L"`, `"IL"` and `"X"` of C12: `""` and `"X"` give an empty
subtree; `"L"` gives a leaf holding `'\0'` and `"IL"` an internal node whose
left child is such a leaf, where an empty subtree was to be returned. -/
theorem deserialize_end_of_stream_witness :
    Machine.deserialize_helper [] 1 0 = some (null, 0) ∧
    Machine.deserialize_helper [88] 2 0 = some (null, 0) ∧
    Machine.deserialize_helper [tokL] 2 0 = some (node NUL 0 null null, 1) ∧
    Machine.deserialize_helper [tokI, tokL] 3 0 =
      some (node NUL 0 (node NUL 0 null null) null, 3) ∧
    Machine.deserialize_tree [tokL] = some (node NUL 0 null null) ∧
    Machine.deserialize_tree [tokI, tokL] = some (node NUL 0 (node NUL 0 null null) null) :=
  ⟨(deserialize_end_of_stream [] 0 (by decide) (by decide)).2.1 (by decide),
    (deserialize_end_of_stream [88] 0 (by decide) (by decide)).2.2.1 (by decide) (by decide)
      (by decide),
    (deserialize_end_of_stream [tokL] 0 (by decide) (by decide)).2.2.2 (by decide) (by decide),
    by decide, by decide, by decide⟩

end HuffmanCoder
